import Mathlib

/-!
Shallow embedding of `python/triton/runtime/autotuner.py` (the autotuner core
of this repository) and verification of the frozen claims about it.

Conventions of the embedding:
* Python dicts are insertion-ordered association lists; `assocSet` mirrors
  `d[k] = v` (update in place, else append) and `dictMerge` mirrors
  `\x7b**a, **b\x7d` (later entries win).
* Python floats are modelled as exact rationals; `sys.float_info.max` is the
  exact IEEE-754 binary64 maximum `2^1024 - 2^971`.  IEEE rounding is not
  modelled; no theorem below depends on a value within one ulp of another.
  Benchmarker results additionally admit `inf` (see `PFloat`).
* `Config` objects are identified by natural-number ids in the policy state
  (the Python caches key configs by object identity); `Nat → Config` maps an
  id to its field contents where those are needed.
* Kernel launches, benchmarking, `random` draws and device-event timings are
  external collaborators; each `run` takes them as explicit oracles.
-/

namespace Autotuner

/-- Python values as far as the autotuner core inspects them: `None`, ints,
strings, and objects carrying a `dtype` attribute (tensors). -/
inductive PyVal where
  | vNone
  | vInt (n : Int)
  | vStr (s : String)
  | vTensor (dtype : String)
deriving DecidableEq, Repr

/-- Python `dict` with `String` keys, as an insertion-ordered association list. -/
abbrev PyDict := List (String × PyVal)

/-- First binding for a key in an association list (`d[k]` lookup / `d.get(k)`). -/
def assocGet? {κ α : Type} [DecidableEq κ] (l : List (κ × α)) (k : κ) : Option α :=
  (l.find? (fun p => p.1 == k)).map (fun p => p.2)

/-- Python `d[k] = v`: update the existing binding in place, else append. -/
def assocSet {κ α : Type} [DecidableEq κ] (l : List (κ × α)) (k : κ) (v : α) :
    List (κ × α) :=
  if l.any (fun p => p.1 == k) then
    l.map (fun p => if p.1 == k then (k, v) else p)
  else
    l ++ [(k, v)]

/-- Python dict merge `\x7b**a, **b\x7d`: bindings of `b` override those of `a`. -/
def dictMerge {κ α : Type} [DecidableEq κ] (a b : List (κ × α)) : List (κ × α) :=
  b.foldl (fun d p => assocSet d p.1 p.2) a

/-- Keys of a dict, in order. -/
def assocKeys {κ α : Type} (l : List (κ × α)) : List κ :=
  l.map (fun p => p.1)

/-- `dict(zip(names, args))` used to populate `self.nargs`. -/
def zipDict (names : List String) (args : List PyVal) : PyDict :=
  names.zip args

/-- A Python float as produced by the benchmarker: a finite value (exact
rational) or `float("inf")`. -/
inductive PFloat where
  | fin (q : ℚ)
  | inf
deriving DecidableEq, Repr

/-- Strict `<` on `PFloat`, as Python compares floats (`inf` is maximal,
`inf < inf` is false). -/
def PFloat.ltB : PFloat → PFloat → Bool
  | .fin p, .fin q => p < q
  | .fin _, .inf => true
  | .inf, _ => false

/-- The `(median, 20th percentile, 80th percentile)` triple returned by the
benchmarker for quantiles `(0.5, 0.2, 0.8)`. -/
abbrev Triple := PFloat × PFloat × PFloat

/-- Python list/tuple comparison `<` on timing triples: lexicographic. -/
def tripleLtB (a b : Triple) : Bool :=
  if a.1 = b.1 then
    if a.2.1 = b.2.1 then PFloat.ltB a.2.2 b.2.2
    else PFloat.ltB a.2.1 b.2.1
  else PFloat.ltB a.1 b.1

/-- The triple `[float("inf")] * 3` returned by `_bench` on a soft failure. -/
def infTriple : Triple := (.inf, .inf, .inf)

/-- Python `min(l, key=f)` with a `Bool`-valued strict order: the fold keeps
the current best and replaces it only on strict improvement, so the result is
the first element attaining the minimum.  `none` on the empty list
(`ValueError` in Python, handled at each use site). -/
def pyMinBy {α β : Type} (l : List α) (f : α → β) (ltB : β → β → Bool) : Option α :=
  match l with
  | [] => none
  | x :: xs => some (xs.foldl (fun b y => if ltB (f y) (f b) then y else b) x)

/-- `sys.float_info.max`, exactly: `(2 - 2^(-52)) * 2^1023`. -/
def FMAX : ℚ := 2 ^ 1024 - 2 ^ 971

/-- Sum of a list of rationals (`sum(l)`). -/
def qSum (l : List ℚ) : ℚ := l.foldr (fun a b => a + b) 0

/-- `sum(l) / len(l)`, also `statistics.mean` (exact). -/
def qMean (l : List ℚ) : ℚ := qSum l / (l.length : ℚ)

/-- `statistics.variance` (sample variance, denominator `n - 1`), exact;
only evaluated on lists of length at least 2. -/
def qVar (l : List ℚ) : ℚ :=
  qSum (l.map (fun x => (x - qMean l) ^ 2)) / ((l.length : ℚ) - 1)

/-- `triton.Config`: one candidate kernel parameterization.  The eight
compiler-hint fields are `Option Int` because Python would let any of them be
`None` and `all_kwargs` tests each against `None`; their defaults mirror
`Config.__init__`.  The `pre_hook` callback is modelled by its presence. -/
structure Config where
  kwargs : PyDict
  num_warps : Option Int := some 4
  num_ctas : Option Int := some 1
  num_stages : Option Int := some 2
  num_buffers_warp_spec : Option Int := some 0
  num_consumer_groups : Option Int := some 0
  reg_dec_producer : Option Int := some 0
  reg_inc_consumer : Option Int := some 0
  maxnreg : Option Int := none
  pre_hook : Bool := false
deriving DecidableEq, Repr

/-- `Config.__init__`: pure field assignment, in source order; it performs no
validation of any kind. -/
def Config.init (kwargs : PyDict) (num_warps num_stages num_ctas
    num_buffers_warp_spec num_consumer_groups reg_dec_producer
    reg_inc_consumer maxnreg : Option Int) (pre_hook : Bool) : Config :=
  { kwargs := kwargs
    num_warps := num_warps
    num_ctas := num_ctas
    num_stages := num_stages
    num_buffers_warp_spec := num_buffers_warp_spec
    num_consumer_groups := num_consumer_groups
    reg_dec_producer := reg_dec_producer
    reg_inc_consumer := reg_inc_consumer
    maxnreg := maxnreg
    pre_hook := pre_hook }

/-- The compiler-hint fields of a config, in the exact tuple order of the
source's `all_kwargs`. -/
def Config.hintFields (c : Config) : List (String × Option Int) :=
  [("num_warps", c.num_warps),
   ("num_ctas", c.num_ctas),
   ("num_stages", c.num_stages),
   ("num_buffers_warp_spec", c.num_buffers_warp_spec),
   ("num_consumer_groups", c.num_consumer_groups),
   ("reg_dec_producer", c.reg_dec_producer),
   ("reg_inc_consumer", c.reg_inc_consumer),
   ("maxnreg", c.maxnreg)]

/-- The eight compiler-hint names. -/
def hintNames : List String :=
  ["num_warps", "num_ctas", "num_stages", "num_buffers_warp_spec",
   "num_consumer_groups", "reg_dec_producer", "reg_inc_consumer", "maxnreg"]

/-- The inner dict comprehension of `all_kwargs`: the compiler hints whose
value `is not None`, in tuple order. -/
def Config.hintItems (c : Config) : PyDict :=
  c.hintFields.filterMap (fun p => p.2.map (fun n => (p.1, PyVal.vInt n)))

/-- `Config.all_kwargs`: `\x7b**kwargs, **\x7bname: hint for non-None hints\x7d\x7d`.
Hint bindings override same-named `kwargs` bindings (the hint dict is splatted
second). -/
def Config.all_kwargs (c : Config) : PyDict :=
  dictMerge c.kwargs c.hintItems

/-- Modelled from the spec: a construction-time check rejecting naming
conflicts between `kwargs` and the compiler hints ("naming conflicts between
`kwargs` and the compiler hints are disallowed at construction time").  The
source's `Config.__init__` contains no such check; this definition exists only
to state what the spec asks for. -/
def Config.initChecked (kwargs : PyDict) (num_warps num_stages num_ctas
    num_buffers_warp_spec num_consumer_groups reg_dec_producer
    reg_inc_consumer maxnreg : Option Int) (pre_hook : Bool) :
    Except String Config :=
  if (assocKeys kwargs).any (fun k => hintNames.contains k) then
    .error "conflict"
  else
    .ok (Config.init kwargs num_warps num_stages num_ctas
      num_buffers_warp_spec num_consumer_groups reg_dec_producer
      reg_inc_consumer maxnreg pre_hook)

/-- The default `Config` installed by `BaseAutotuner.__init__` when the
candidate list is empty or `None`. -/
def defaultConfig : Config :=
  { kwargs := []
    num_warps := some 4
    num_ctas := some 1
    num_stages := some 2
    num_buffers_warp_spec := some 0
    num_consumer_groups := some 0
    reg_dec_producer := some 0
    reg_inc_consumer := some 0
    maxnreg := none
    pre_hook := false }

/-- `BaseAutotuner._get_key`: restrict `\x7b**nargs, **kwargs\x7d` to `arg_names`,
take the values of the `key` names present, then append `str(arg.dtype)` for
every restricted entry carrying a `dtype` attribute, in dict order. -/
def getKey (arg_names keys : List String) (merged : PyDict) : List PyVal :=
  let args := merged.filter (fun p => arg_names.contains p.1)
  let base := keys.filterMap (fun k => assocGet? args k)
  base ++ args.filterMap (fun p =>
    match p.2 with
    | .vTensor d => some (PyVal.vStr d)
    | _ => none)

/-- Python exceptions that the embedded code can raise. -/
inductive PyErr where
  | valueError
  | typeError
  | zeroDivisionError
  | attributeError
  | indexError
  | notImplementedError
  | otherException
deriving DecidableEq, Repr

/-- Outcome of handing the kernel-call closure to `self.do_bench` (an
external collaborator): a normal `(median, p20, p80)` triple, an
`OutOfResources`, a `CompileTimeAssertionFailure`, or any other exception. -/
inductive BenchOutcome where
  | ok (t : Triple)
  | oor
  | ctaf
  | other
deriving DecidableEq, Repr

/-- `BaseAutotuner._bench`: raise `ValueError` when the call kwargs and the
config's kwargs share a name; otherwise hand the closure to the benchmarker
and turn `OutOfResources` / `CompileTimeAssertionFailure` into the
`[inf, inf, inf]` triple without propagating.  Any other exception
propagates. -/
def bench (meta : PyDict) (config : Config) (oracle : BenchOutcome) :
    Except PyErr Triple :=
  if (assocKeys meta).any (fun k => (assocKeys config.kwargs).contains k) then
    .error .valueError
  else
    match oracle with
    | .ok t => .ok t
    | .oor => .ok infTriple
    | .ctaf => .ok infTriple
    | .other => .error .otherException

/-- Truthiness class of the value returned by `self.fn.run`: `None`, a falsy
non-`None` value, or a truthy value. -/
inductive RVal where
  | rNone
  | rFalsy
  | rTruthy
deriving DecidableEq, Repr

/-- Outcome of one `self.fn.run` launch inside a policy loop: the kernel
either raises `OutOfResources` or returns a value of the given truthiness.
(Other exceptions propagate out of `run` unhandled; they are not modelled in
the loops, which only catch `OutOfResources`.) -/
inductive Outcome where
  | oor
  | ret (v : RVal)
deriving DecidableEq, Repr

/-- Per-loop-iteration oracle data: the index drawn by `random.choice`, the
draw of `random.random()` (for epsilon), the launch outcome, and the
device-event elapsed time. -/
structure IterO where
  choice : Nat
  u : ℚ
  outcome : Outcome
  time : ℚ
deriving Repr

/-- `_bench` over the pruned configs, in order, mirroring the dict
comprehension in `Autotuner.run`.  An exception aborts the comprehension; the
error carries the prefix already benchmarked. -/
def benchAll (meta : PyDict) (cfg : Nat → Config) (benchO : Nat → BenchOutcome) :
    List Nat → Except (List Nat × PyErr) (List (Nat × Triple))
  | [] => .ok []
  | c :: cs =>
    match bench meta (cfg c) (benchO c) with
    | .error e => .error ([], e)
    | .ok t =>
      match benchAll meta cfg benchO cs with
      | .error p => .error (c :: p.1, p.2)
      | .ok ts => .ok ((c, t) :: ts)

/-- Result of one `Autotuner.run` (exhaustive policy) call. -/
structure ExhOut where
  res : Except PyErr RVal
  cache : List (List PyVal × Nat)
  benched : List Nat
  keyUsed : Option (List PyVal)
  executed : Option Nat
  nargsStart : PyDict
  nargsFinal : Option PyDict
deriving Repr

/-- `Autotuner.run` (the exhaustive policy).  `configs` is the tuner's
candidate list (ids), `cache` its key-to-best-config cache, `ps` the output
of `prune_configs`, `benchO` the benchmarker oracle and `launch` the outcome
of the final user-visible `self.fn.run` call (whose exceptions propagate, in
which case `self.nargs` is never cleared). -/
def autotunerRun (arg_names keys : List String) (configs : List Nat)
    (cfg : Nat → Config) (cache : List (List PyVal × Nat)) (args : List PyVal)
    (kwargs : PyDict) (ps : List Nat) (benchO : Nat → BenchOutcome)
    (launch : Except PyErr RVal) : ExhOut :=
  let nargs := zipDict arg_names args
  let finish := fun (cache' : List (List PyVal × Nat)) (benched : List Nat)
      (keyUsed : Option (List PyVal)) (c : Nat) =>
    match launch with
    | .error e =>
      { res := .error e, cache := cache', benched := benched, keyUsed := keyUsed
        executed := some c, nargsStart := nargs, nargsFinal := some nargs }
    | .ok v =>
      { res := .ok v, cache := cache', benched := benched, keyUsed := keyUsed
        executed := some c, nargsStart := nargs, nargsFinal := none }
  if 1 < configs.length then
    let key := getKey arg_names keys (dictMerge nargs kwargs)
    match assocGet? cache key with
    | some c => finish cache [] (some key) c
    | none =>
      match benchAll kwargs cfg benchO ps with
      | .error p =>
        { res := .error p.2, cache := cache, benched := p.1, keyUsed := some key
          executed := none, nargsStart := nargs, nargsFinal := some nargs }
      | .ok timings =>
        match pyMinBy timings (fun p => p.2) tripleLtB with
        | none =>
          { res := .error .valueError, cache := cache, benched := ps
            keyUsed := some key, executed := none, nargsStart := nargs
            nargsFinal := some nargs }
        | some best =>
          finish (cache ++ [(key, best.1)]) ps (some key) best.1
  else
    match configs.head? with
    | none =>
      { res := .error .indexError, cache := cache, benched := [], keyUsed := none
        executed := none, nargsStart := nargs, nargsFinal := some nargs }
    | some c => finish cache [] none c

/-- Per-key sample store of the stepwise/confidence policies: a
`defaultdict(list)` from config (by identity) to either a sample list or the
`None` failure sentinel. -/
abbrev Entries := List (Nat × Option (List ℚ))

/-- Per-key cache payload of the stepwise/confidence policies:
`Union[Config, Dict[Config, List[float]]]` — a decided config, or the sample
store while still exploring. -/
inductive TCache where
  | deciding (e : Entries)
  | decided (c : Nat)
deriving DecidableEq, Repr

/-- `cache[c]` on the `defaultdict(list)` sample store: return the stored
value, inserting an empty sample list first when the key is absent. -/
def ddLookup (e : Entries) (c : Nat) : Entries × Option (List ℚ) :=
  match assocGet? e c with
  | some v => (e, v)
  | none => (e ++ [(c, some [])], some [])

/-- How a policy loop ends: normal exit with the kernel's return value,
oracle list exhausted while still looping (the observation window ended), or
a propagating exception. -/
inductive LoopRes where
  | finished (v : RVal)
  | exhausted
  | errored (err : PyErr)
deriving DecidableEq, Repr

/-- State and trace of a stepwise/confidence loop. -/
structure SWOut where
  res : LoopRes
  entries : Entries
  committed : Option Nat
  executed : List Nat
deriving Repr

/-- The per-key cache value rebuilt from loop state: committed means
`self._tcache[key]` holds the decided `Config`, otherwise the sample dict. -/
def mkT (e : Entries) (committed : Option Nat) : TCache :=
  match committed with
  | some c => .decided c
  | none => .deciding e

/-- Eligibility scan of `StepwiseAutotuner.run`:
`[c for c in pruned if cache[c] is not None and (c not in cache or len(cache[c]) < min_try)]`.
Each `cache[c]` lookup inserts an empty list for an absent key (defaultdict),
after which `c not in cache` is always false, so the second conjunct reduces
to `len(cache[c]) < min_try`. -/
def swElig (min_try : Nat) (ps : List Nat) (e : Entries) : Entries × List Nat :=
  match ps with
  | [] => (e, [])
  | c :: cs =>
    let p := ddLookup e c
    match p.2 with
    | none => swElig min_try cs p.1
    | some l =>
      if l.length < min_try then
        let rest := swElig min_try cs p.1
        (rest.1, c :: rest.2)
      else swElig min_try cs p.1

/-- Commit step of `StepwiseAutotuner.run`: `min` over the non-`None` entries
(in dict order) by mean sample time.  `ValueError` on an empty candidate set;
`ZeroDivisionError` if any sample list is empty (`sum(l)/len(l)`). -/
def swCommit (e : Entries) : Except PyErr Nat :=
  let nn := e.filterMap (fun p => p.2.map (fun l => (p.1, l)))
  match nn with
  | [] => .error .valueError
  | _ :: _ =>
    if nn.any (fun p => p.2.length = 0) then .error .zeroDivisionError
    else
      match pyMinBy nn (fun p => qMean p.2) (fun a b => a < b) with
      | some p => .ok p.1
      | none => .error .valueError

/-- The sample write of the stepwise/confidence loops, on the dict currently
stored at `self._tcache[key]`: on a truthy return, `cache[c].append(t)`
(defaultdict inserts `[]` first when absent; `AttributeError` when the stored
value is the `None` sentinel); otherwise `cache[c] = None`. -/
def swRecord (e : Entries) (c : Nat) (t : ℚ) (success : Bool) :
    Except PyErr Entries :=
  if success then
    match assocGet? e c with
    | some (some l) => .ok (assocSet e c (some (l ++ [t])))
    | some none => .error .attributeError
    | none => .ok (e ++ [(c, some [t])])
  else
    .ok (assocSet e c none)

/-- The loop of `StepwiseAutotuner.run` / `ConfidenceAutotuner.run` once the
per-key cache already holds a decided `Config` `c`: launch `c`, retrying
forever on `OutOfResources` (nothing is recorded and the decision is never
revisited). -/
def decidedLoop (c : Nat) : List IterO → LoopRes × List Nat
  | [] => (.exhausted, [])
  | o :: os =>
    match o.outcome with
    | .ret v =>
      if v = .rNone then
        let p := decidedLoop c os
        (p.1, c :: p.2)
      else (.finished v, [c])
    | .oor =>
      let p := decidedLoop c os
      (p.1, c :: p.2)

/-- The `while ret == None` loop of `StepwiseAutotuner.run`, entered with the
per-key sample dict.  `e` is the dict contents, `committed` records whether a
`self._tcache[key] = config` assignment has happened (the loop's local
`cache` variable still aliases the dict afterwards, so `isinstance(cache,
Config)` keeps evaluating the dict).  One `IterO` is consumed per
iteration. -/
def swLoop (min_try : Nat) (ps : List Nat) :
    List IterO → Entries → Option Nat → SWOut
  | [], e, committed =>
    { res := .exhausted, entries := e, committed := committed, executed := [] }
  | o :: os, e, committed =>
    let el := swElig min_try ps e
    match el.2 with
    | [] =>
      -- explore set empty: commit `min` by mean, run the decided config
      match swCommit el.1 with
      | .error err =>
        { res := .errored err, entries := el.1, committed := committed
          executed := [] }
      | .ok c =>
        -- `self._tcache[key] = config`; `isconfig = True`: no timing writes
        match o.outcome with
        | .ret v =>
          if v = .rNone then
            let r := swLoop min_try ps os el.1 (some c)
            { r with executed := c :: r.executed }
          else
            { res := .finished v, entries := el.1, committed := some c
              executed := [c] }
        | .oor =>
          let r := swLoop min_try ps os el.1 (some c)
          { r with executed := c :: r.executed }
    | e0 :: etl =>
      let elig := e0 :: etl
      let c := elig.getD (o.choice % elig.length) 0
      let retv : RVal := match o.outcome with | .oor => .rNone | .ret v => v
      -- `isconfig` is false here, so the timing block runs; if a commit
      -- happened in an earlier iteration, `self._tcache[key]` is a `Config`
      -- and subscripting it raises `TypeError`.
      match committed with
      | some d =>
        { res := .errored .typeError, entries := el.1, committed := some d
          executed := [c] }
      | none =>
        match swRecord el.1 c o.time (retv = .rTruthy) with
        | .error err =>
          { res := .errored err, entries := el.1, committed := none
            executed := [c] }
        | .ok e2 =>
          if retv = .rNone then
            let r := swLoop min_try ps os e2 none
            { r with executed := c :: r.executed }
          else
            { res := .finished retv, entries := e2, committed := none
              executed := [c] }

/-- Result of one policy `run` call (stepwise / confidence / epsilon share
the shape; the state field is policy-specific). -/
structure RunOut (σ : Type) where
  res : LoopRes
  state : σ
  executed : List Nat
  nargsStart : PyDict
  nargsFinal : Option PyDict
deriving Repr

/-- `StepwiseAutotuner.run`: populate `self.nargs`, bind the per-key cache,
loop, and clear `self.nargs` (only) on normal exit. -/
def stepwiseRun (min_try : Nat) (arg_names : List String) (args : List PyVal)
    (ps : List Nat) (os : List IterO) (s : TCache) : RunOut TCache :=
  let nargs := zipDict arg_names args
  match s with
  | .decided c =>
    let p := decidedLoop c os
    { res := p.1, state := .decided c, executed := p.2, nargsStart := nargs
      nargsFinal := match p.1 with | .finished _ => none | _ => some nargs }
  | .deciding e =>
    let r := swLoop min_try ps os e none
    { res := r.res, state := mkT r.entries r.committed, executed := r.executed
      nargsStart := nargs
      nargsFinal := match r.res with | .finished _ => none | _ => some nargs }

/-- `_get_boundary` of `ConfidenceAutotuner.run`, on a (non-`None`) sample
list: mean is `sys.float_info.max` for an empty list, the sample variance is
`sys.float_info.max` for a single sample and `0.0` for an empty list, and the
result is `op mean (ratio * variance)`. -/
def getBoundary (ratio : ℚ) (l : List ℚ) (op : ℚ → ℚ → ℚ) : ℚ :=
  let mean := if l.isEmpty then FMAX else qMean l
  let variance :=
    if 1 < l.length then qVar l else if l.length = 1 then FMAX else 0
  op mean (ratio * variance)

/-- `_get_lower_boundary`: `mean - ratio * variance`. -/
def lowerB (ratio : ℚ) (l : List ℚ) : ℚ := getBoundary ratio l (fun x y => x - y)

/-- `_get_upper_boundary`: `mean + ratio * variance`. -/
def upperB (ratio : ℚ) (l : List ℚ) : ℚ := getBoundary ratio l (fun x y => x + y)

/-- Candidate scan of `ConfidenceAutotuner.run`:
`[c for c in pruned if cache[c] is not None]`, with the defaultdict inserting
an empty sample list for each absent pruned config. -/
def cfElig (ps : List Nat) (e : Entries) : Entries × List Nat :=
  match ps with
  | [] => (e, [])
  | c :: cs =>
    let p := ddLookup e c
    match p.2 with
    | none => cfElig cs p.1
    | some _ =>
      let rest := cfElig cs p.1
      (rest.1, c :: rest.2)

/-- The sample list the selection key sees for config `c` (`cache[c]` on a
key known to be present with a non-`None` value; defensively `[]`). -/
def entList (e : Entries) (c : Nat) : List ℚ :=
  match assocGet? e c with
  | some (some l) => l
  | _ => []

/-- The commit test of `ConfidenceAutotuner.run`:
`all(_get_lower_boundary(v) >= upper for k, v in cache.items() if k != config)`.
The generator short-circuits at the first failing candidate; computing the
boundary of a failed (`None`) entry raises `TypeError` (`len(None)`). -/
def cfCheck (ratio upper : ℚ) (cstar : Nat) : Entries → Except PyErr Bool
  | [] => .ok true
  | (k, v) :: rest =>
    if k = cstar then cfCheck ratio upper cstar rest
    else
      match v with
      | none => .error .typeError
      | some l =>
        if lowerB ratio l < upper then .ok false
        else cfCheck ratio upper cstar rest

/-- The `while ret == None` loop of `ConfidenceAutotuner.run`, entered with
the per-key sample dict (same aliasing behaviour as `swLoop`: the local
`cache` still names the dict after `self._tcache[key] = config`). -/
def cfLoop (ratio : ℚ) (ps : List Nat) :
    List IterO → Entries → Option Nat → SWOut
  | [], e, committed =>
    { res := .exhausted, entries := e, committed := committed, executed := [] }
  | o :: os, e, committed =>
    let el := cfElig ps e
    match pyMinBy el.2 (fun c => lowerB ratio (entList el.1 c))
        (fun a b => a < b) with
    | none =>
      -- `min` of an empty candidate list: ValueError
      { res := .errored .valueError, entries := el.1, committed := committed
        executed := [] }
    | some cstar =>
      let upper := upperB ratio (entList el.1 cstar)
      match cfCheck ratio upper cstar el.1 with
      | .error err =>
        { res := .errored err, entries := el.1, committed := committed
          executed := [] }
      | .ok commitNow =>
        let committed' := if commitNow then some cstar else committed
        let retv : RVal := match o.outcome with | .oor => .rNone | .ret v => v
        if commitNow then
          -- `isconfig = True`: no timing writes
          if retv = .rNone then
            let r := cfLoop ratio ps os el.1 committed'
            { r with executed := cstar :: r.executed }
          else
            { res := .finished retv, entries := el.1, committed := committed'
              executed := [cstar] }
        else
          -- timing block: writes through `self._tcache[key]`
          match committed with
          | some d =>
            { res := .errored .typeError, entries := el.1, committed := some d
              executed := [cstar] }
          | none =>
            match swRecord el.1 cstar o.time (retv = .rTruthy) with
            | .error err =>
              { res := .errored err, entries := el.1, committed := none
                executed := [cstar] }
            | .ok e2 =>
              if retv = .rNone then
                let r := cfLoop ratio ps os e2 none
                { r with executed := cstar :: r.executed }
              else
                { res := .finished retv, entries := e2, committed := none
                  executed := [cstar] }

/-- `ConfidenceAutotuner.run`. -/
def confidenceRun (ratio : ℚ) (arg_names : List String) (args : List PyVal)
    (ps : List Nat) (os : List IterO) (s : TCache) : RunOut TCache :=
  let nargs := zipDict arg_names args
  match s with
  | .decided c =>
    let p := decidedLoop c os
    { res := p.1, state := .decided c, executed := p.2, nargsStart := nargs
      nargsFinal := match p.1 with | .finished _ => none | _ => some nargs }
  | .deciding e =>
    let r := cfLoop ratio ps os e none
    { res := r.res, state := mkT r.entries r.committed, executed := r.executed
      nargsStart := nargs
      nargsFinal := match r.res with | .finished _ => none | _ => some nargs }

/-- Per-key state of the epsilon policy:
`(candidate, epsilon, best_time)` once stored, absent before.  The candidate
slot can hold `None` (it is initialized to `None` on a miss and stored
verbatim when the measured time does not improve `best_time`). -/
abbrev EState := Option (Option Nat × ℚ × ℚ)

/-- The `while ret == None` loop of `EpsilonAutotuner.run`.  Note: this `run`
returns from inside the loop and never executes `self.nargs = None`. -/
def epsLoop (eps0 decay : ℚ) (ps : List Nat) :
    List IterO → EState → LoopRes × EState × List Nat
  | [], s => (.exhausted, s, [])
  | o :: os, s =>
    let t : Option Nat × ℚ × ℚ × Bool :=
      match s with
      | some (cand, eps, perf) => (cand, eps, perf, decide (o.u < eps))
      | none => (none, eps0, FMAX, true)
    let cand := t.1
    let eps := t.2.1
    let perf := t.2.2.1
    let isExplore := t.2.2.2
    let cfgs := if isExplore then ps.filter (fun c => some c ≠ cand) else []
    let config : Option Nat :=
      match cfgs with
      | [] => cand
      | c0 :: cs => some ((c0 :: cs).getD (o.choice % (c0 :: cs).length) 0)
    match config with
    | none =>
      -- `config` and `candidate` both `None`: `config.pre_hook` raises
      (.errored .attributeError, s, [])
    | some c =>
      match o.outcome with
      | .oor =>
        let r := epsLoop eps0 decay ps os s
        (r.1, r.2.1, c :: r.2.2)
      | .ret v =>
        if v = .rNone then
          let r := epsLoop eps0 decay ps os s
          (r.1, r.2.1, c :: r.2.2)
        else
          if isExplore then
            let s' : EState :=
              if perf > o.time then some (some c, eps0, o.time)
              else some (cand, eps * (1 - decay), perf)
            (.finished v, s', [c])
          else
            (.finished v, s, [c])

/-- `EpsilonAutotuner.run`: populates `self.nargs` and returns from inside
the loop; `self.nargs` is never cleared. -/
def epsilonRun (eps0 decay : ℚ) (arg_names : List String) (args : List PyVal)
    (ps : List Nat) (os : List IterO) (s : EState) : RunOut EState :=
  let nargs := zipDict arg_names args
  let r := epsLoop eps0 decay ps os s
  { res := r.1, state := r.2.1, executed := r.2.2, nargsStart := nargs
    nargsFinal := some nargs }

/-- Which pre/post hook `BaseAutotuner.__init__` installs: the user-supplied
callback (identified by an opaque token), the default reset/restore closure,
or the no-op lambda. -/
inductive HookKind where
  | user (t : Nat)
  | defaultHook
  | noop
deriving DecidableEq, Repr

/-- The `top_k` pruning parameter: a float fraction or an integer count. -/
inductive TopK where
  | tkFloat (q : ℚ)
  | tkInt (n : Int)
deriving DecidableEq, Repr

/-- Which benchmarker `BaseAutotuner.__init__` ends up with. -/
inductive BenchSource where
  | cudaGraph
  | testingDoBench
  | driverDefault
  | userBench (t : Nat)
deriving DecidableEq, Repr

/-- The `prune_configs_by` dict (callbacks as opaque tokens). -/
structure PruneSpec where
  perf_model : Option Nat := none
  top_k : Option TopK := none
  early_config_prune : Option Nat := none
deriving DecidableEq, Repr

/-- The state `BaseAutotuner.__init__` establishes, as far as the claims
observe it. -/
structure BaseState where
  configs : List Config
  keys : List String
  arg_names : List String
  reset_to_zero : List String
  restore_value : List String
  preHook : HookKind
  postHook : HookKind
  perf_model : Option Nat
  configs_top_k : TopK
  early_config_prune : Option Nat
  benchSource : BenchSource
deriving DecidableEq, Repr

/-- `BaseAutotuner.__init__`.  `configs` is `Option` to model passing `None`;
`if not configs:` installs the single default `Config`.  Hook selection and
the pruning fields mirror the source; the deprecated `warmup`/`rep`/
`use_cuda_graph` path switches the benchmarker. -/
def baseInit (arg_names : List String) (configs : Option (List Config))
    (key : List String) (reset_to_zero restore_value : Option (List String))
    (pre_hook post_hook : Option Nat) (prune_configs_by : Option PruneSpec)
    (warmup rep : Option Nat) (use_cuda_graph : Bool) (do_bench : Option Nat) :
    BaseState :=
  let cfgs :=
    match configs with
    | none => [defaultConfig]
    | some [] => [defaultConfig]
    | some (c :: cs) => c :: cs
  let rz := reset_to_zero.getD []
  let rv := restore_value.getD []
  let ph :=
    match pre_hook with
    | some t => HookKind.user t
    | none => if 0 < rz.length ∨ 0 < rv.length then .defaultHook else .noop
  let qh :=
    match post_hook with
    | some t => HookKind.user t
    | none => if 0 < rv.length then .defaultHook else .noop
  let pm :=
    match prune_configs_by with
    | some p => p.perf_model
    | none => none
  let tk :=
    match prune_configs_by with
    | some p => p.top_k.getD (.tkFloat 1)
    | none => .tkFloat 1
  let ecp :=
    match prune_configs_by with
    | some p => p.early_config_prune
    | none => none
  let bs :=
    if warmup.isSome ∨ rep.isSome ∨ use_cuda_graph then
      if use_cuda_graph then BenchSource.cudaGraph else .testingDoBench
    else
      match do_bench with
      | none => .driverDefault
      | some t => .userBench t
  { configs := cfgs, keys := key, arg_names := arg_names, reset_to_zero := rz
    restore_value := rv, preHook := ph, postHook := qh, perf_model := pm
    configs_top_k := tk, early_config_prune := ecp, benchSource := bs }

/-- A constructed policy instance: the shared base state plus the
policy-specific hyperparameters the constructor received. -/
inductive TunerInstance where
  | exhaustive (b : BaseState)
  | stepwise (b : BaseState) (min_try : Nat)
  | epsilon (b : BaseState) (eps decay : ℚ)
  | confidence (b : BaseState) (ratio : ℚ)
deriving DecidableEq, Repr

/-- The `min_try` hyperparameter a constructed instance carries, when it is a
stepwise tuner. -/
def tunerMinTry : TunerInstance → Option Nat
  | .stepwise _ m => some m
  | _ => none

/-- The arguments of the `autotune(...)` facade, verbatim.  It accepts no
policy hyperparameters. -/
structure AutotuneArgs where
  configs : Option (List Config)
  key : List String
  prune_configs_by : Option PruneSpec := none
  reset_to_zero : Option (List String) := none
  restore_value : Option (List String) := none
  pre_hook : Option Nat := none
  post_hook : Option Nat := none
  warmup : Option Nat := none
  rep : Option Nat := none
  use_cuda_graph : Bool := false
  do_bench : Option Nat := none
deriving DecidableEq, Repr

/-- `autotune(...)`'s inner `decorator(fn, autotuner)`: dispatch on the
policy name and construct it with exactly the twelve positional arguments of
the source call — the facade's `do_bench` is not among them, and no
hyperparameter is, so every hyperparameter takes its constructor default
(`min_try=20`, `epsilon=1.0`, `decay=0.001`, `ratio=3.0`).  Unknown names
raise `NotImplementedError`. -/
def autotuneDecorate (a : AutotuneArgs) (fn_arg_names : List String)
    (name : String) : Except PyErr TunerInstance :=
  let b := baseInit fn_arg_names a.configs a.key a.reset_to_zero
    a.restore_value a.pre_hook a.post_hook a.prune_configs_by a.warmup a.rep
    a.use_cuda_graph none
  match name with
  | "default" => .ok (.exhaustive b)
  | "stepwise" => .ok (.stepwise b 20)
  | "epsilon" => .ok (.epsilon b 1 (1 / 1000))
  | "confidence" => .ok (.confidence b (3 : ℚ))
  | _ => .error .notImplementedError

/-- Modelled from the spec: §4.7 says the facade constructs the chosen policy
with "the user-supplied candidate list, key names, reset/restore/hook
configuration, pruning callbacks, and (for stepwise/epsilon/confidence)
policy-specific hyperparameters (`min_try`, `epsilon`/`decay`, `ratio`)".
The source's `autotune` accepts no such hyperparameters, so the extra inputs
here exist only to state the spec's version for comparison. -/
def specAutotuneDecorate (a : AutotuneArgs) (fn_arg_names : List String)
    (min_try : Nat) (eps decay ratio : ℚ) (name : String) :
    Except PyErr TunerInstance :=
  let b := baseInit fn_arg_names a.configs a.key a.reset_to_zero
    a.restore_value a.pre_hook a.post_hook a.prune_configs_by a.warmup a.rep
    a.use_cuda_graph none
  match name with
  | "default" => .ok (.exhaustive b)
  | "stepwise" => .ok (.stepwise b min_try)
  | "epsilon" => .ok (.epsilon b eps decay)
  | "confidence" => .ok (.confidence b ratio)
  | _ => .error .notImplementedError

/-- The arguments of one stepwise/confidence `run` call, for iterating runs:
positional args, the pruned candidate list of that call, and the loop
oracles.  (`prune_configs` is re-evaluated inside the loop, but pruning is
pure — spec §4.2 — so its result is constant within a call.) -/
structure CallArgs where
  args : List PyVal
  ps : List Nat
  os : List IterO

/-- Fold a sequence of `StepwiseAutotuner.run` calls over the per-key state,
collecting every executed config. -/
def stepwiseRuns (min_try : Nat) (arg_names : List String) :
    List CallArgs → TCache → TCache × List Nat
  | [], s => (s, [])
  | c :: cs, s =>
    let r := stepwiseRun min_try arg_names c.args c.ps c.os s
    let rest := stepwiseRuns min_try arg_names cs r.state
    (rest.1, r.executed ++ rest.2)

/-- Fold a sequence of `ConfidenceAutotuner.run` calls over the per-key
state, collecting every executed config. -/
def confidenceRuns (ratio : ℚ) (arg_names : List String) :
    List CallArgs → TCache → TCache × List Nat
  | [], s => (s, [])
  | c :: cs, s =>
    let r := confidenceRun ratio arg_names c.args c.ps c.os s
    let rest := confidenceRuns ratio arg_names cs r.state
    (rest.1, r.executed ++ rest.2)

/-- The arguments of one exhaustive `run` call. -/
structure ExhCallArgs where
  args : List PyVal
  kwargs : PyDict
  ps : List Nat
  benchO : Nat → BenchOutcome
  launch : Except PyErr RVal

/-- Fold a sequence of `Autotuner.run` (exhaustive) calls over the cache. -/
def autotunerRuns (arg_names keys : List String) (configs : List Nat)
    (cfg : Nat → Config) :
    List ExhCallArgs → List (List PyVal × Nat) → List (List PyVal × Nat)
  | [], cache => cache
  | c :: cs, cache =>
    autotunerRuns arg_names keys configs cfg cs
      (autotunerRun arg_names keys configs cfg cache c.args c.kwargs c.ps
        c.benchO c.launch).cache

/-- Modelled from the spec: §4.5.1's selection rule — "pick the candidate
with the minimum median — tie-broken by first-seen order".  This minimizes
the first component of the timing triple only, unlike the source's
`min(timings, key=timings.get)` which compares the whole triple
lexicographically. -/
def specPickMedian (timings : List (Nat × Triple)) : Option Nat :=
  (pyMinBy timings (fun p => p.2.1) PFloat.ltB).map (fun p => p.1)

/-- Extended rationals for the spec's confidence-boundary arithmetic, which
is stated with `+infinity` (the source uses `sys.float_info.max`). -/
inductive XQ where
  | negInf
  | fin (q : ℚ)
  | posInf
deriving DecidableEq, Repr

/-- Order on extended rationals. -/
def XQ.leB : XQ → XQ → Bool
  | .negInf, _ => true
  | .fin p, .fin q => p ≤ q
  | .fin _, .posInf => true
  | .fin _, .negInf => false
  | .posInf, .posInf => true
  | .posInf, _ => false

/-- Scale by a (positive) ratio. -/
def XQ.scale (r : ℚ) : XQ → XQ
  | .fin q => .fin (r * q)
  | .posInf => .posInf
  | .negInf => .negInf

/-- Extended subtraction, as needed by `mean - ratio * var`. -/
def XQ.sub : XQ → XQ → XQ
  | .fin p, .fin q => .fin (p - q)
  | .posInf, _ => .posInf
  | .negInf, _ => .negInf
  | .fin _, .posInf => .negInf
  | .fin _, .negInf => .posInf

/-- Extended addition, as needed by `mean + ratio * var`. -/
def XQ.add : XQ → XQ → XQ
  | .fin p, .fin q => .fin (p + q)
  | .posInf, _ => .posInf
  | .negInf, _ => .negInf
  | .fin _, .posInf => .posInf
  | .fin _, .negInf => .negInf

/-- Modelled from the spec: the claim's `mean(t)` — the sample mean, or
`+infinity` for an empty sample list. -/
def specMean (l : List ℚ) : XQ :=
  if l.isEmpty then .posInf else .fin (qMean l)

/-- Modelled from the spec: the claim's `var(t)` — the sample variance,
`+infinity` for a one-element list and `0` for an empty list. -/
def specVar (l : List ℚ) : XQ :=
  if 1 < l.length then .fin (qVar l) else if l.length = 1 then .posInf else .fin 0

/-- Modelled from the spec: `lower(t) = mean(t) - ratio * var(t)`. -/
def specLower (ratio : ℚ) (l : List ℚ) : XQ :=
  (specMean l).sub ((specVar l).scale ratio)

/-- Modelled from the spec: `upper(t) = mean(t) + ratio * var(t)`. -/
def specUpper (ratio : ℚ) (l : List ℚ) : XQ :=
  (specMean l).add ((specVar l).scale ratio)

/-- The sample list a candidate has under an undecided per-key entry: the
stored list, or the empty list for a candidate not seen yet.  `none` is the
failed sentinel. -/
def claimSamples (e : Entries) (c : Nat) : Option (List ℚ) :=
  match assocGet? e c with
  | some v => v
  | none => some []

/-- Config `c` is marked failed in the per-key sample store `e`: its first
binding is the `None` sentinel, and (as in a Python dict, whose keys are
unique) every binding of `c` is the sentinel. -/
def failedFor (e : Entries) (c : Nat) : Prop :=
  assocGet? e c = some none ∧ ∀ p ∈ e, p.1 = c → p.2 = none

/-- The per-key cache never offers config `c` again: either it is still a
sample store in which `c` is marked failed, or it is decided on a different
config. -/
def avoidsFailed (c : Nat) : TCache → Prop
  | .deciding e => failedFor e c
  | .decided d => d ≠ c

/-- Packaged loop-state property for the C4 invariant: config `c` was never
launched, is still marked failed in the sample store, and is not the
committed decision. -/
def swAvoidsOut (c : Nat) (r : SWOut) : Prop :=
  c ∉ r.executed ∧ failedFor r.entries c ∧
    ∀ d, r.committed = some d → d ≠ c

/-- Per-key confidence states reachable from a fresh key (the outer
`defaultdict` creates an empty sample dict) by whole `run` calls. -/
inductive CfReach (ratio : ℚ) : TCache → Prop where
  | init : CfReach ratio (.deciding [])
  | step (arg_names : List String) (args : List PyVal) (ps : List Nat)
      (os : List IterO) (s : TCache) :
      CfReach ratio s →
      CfReach ratio (confidenceRun ratio arg_names args ps os s).state

/-! Helper lemmas about the dict model. -/

theorem find?_set_map {κ α : Type} [DecidableEq κ] (l : List (κ × α)) (k : κ)
    (v : α) (h : l.any (fun p => p.1 == k) = true) :
    (l.map (fun p => if p.1 == k then (k, v) else p)).find?
      (fun p => p.1 == k) = some (k, v) := by
  induction l with
  | nil => simp at h
  | cons p t ih =>
    cases hp : (p.1 == k) with
    | true =>
      have hf : (if (p.1 == k) = true then (k, v) else p) = (k, v) := if_pos hp
      rw [List.map_cons, hf]
      simp only [List.find?, beq_self_eq_true]
    | false =>
      simp only [List.any_cons, hp, Bool.false_or] at h
      have hf : (if (p.1 == k) = true then (k, v) else p) = p :=
        if_neg (by simp [hp])
      rw [List.map_cons, hf]
      simp only [List.find?, hp]
      exact ih h

theorem find?_map_ne {κ α : Type} [DecidableEq κ] (t : List (κ × α))
    (k k' : κ) (v : α) (h : k' ≠ k) :
    (t.map (fun p => if p.1 == k then (k, v) else p)).find?
      (fun p => p.1 == k') = t.find? (fun p => p.1 == k') := by
  induction t with
  | nil => rfl
  | cons p t ih =>
    cases hp : (p.1 == k) with
    | true =>
      have hpk : p.1 = k := beq_iff_eq.mp hp
      have h1 : (k == k') = false := beq_eq_false_iff_ne.mpr (fun hkk => h hkk.symm)
      have h2 : (p.1 == k') = false := by rw [hpk]; exact h1
      have hf : (if (p.1 == k) = true then (k, v) else p) = (k, v) := if_pos hp
      rw [List.map_cons, hf]
      simp only [List.find?, h1, h2]
      exact ih
    | false =>
      have hf : (if (p.1 == k) = true then (k, v) else p) = p :=
        if_neg (by simp [hp])
      rw [List.map_cons, hf]
      cases hpk : (p.1 == k') with
      | true => simp only [List.find?, hpk]
      | false =>
        simp only [List.find?, hpk]
        exact ih

theorem assocGet_set_self {κ α : Type} [DecidableEq κ] (l : List (κ × α))
    (k : κ) (v : α) : assocGet? (assocSet l k v) k = some v := by
  unfold assocSet assocGet?
  by_cases h : l.any (fun p => p.1 == k)
  · rw [if_pos h, find?_set_map l k v h]
    rfl
  · rw [if_neg h, List.find?_append]
    have hl : l.find? (fun p => p.1 == k) = none := by
      rw [List.find?_eq_none]
      intro p hp hpk
      exact h (List.any_of_mem hp hpk)
    simp [hl, List.find?]

theorem assocGet_set_other {κ α : Type} [DecidableEq κ] (l : List (κ × α))
    (k k' : κ) (v : α) (h : k' ≠ k) :
    assocGet? (assocSet l k v) k' = assocGet? l k' := by
  unfold assocSet assocGet?
  by_cases hc : l.any (fun p => p.1 == k)
  · rw [if_pos hc, find?_map_ne l k k' v h]
  · rw [if_neg hc, List.find?_append]
    have h1 : List.find? (fun p => p.1 == k') [(k, v)] = none := by
      have : (k == k') = false := beq_eq_false_iff_ne.mpr (fun hkk => h hkk.symm)
      simp [List.find?, this]
    rw [h1]
    cases l.find? (fun p => p.1 == k') <;> rfl

/-- Last binding for `k` in a dict fragment (the one that survives a splat). -/
def lastGet? {κ α : Type} [DecidableEq κ] (l : List (κ × α)) (k : κ) : Option α :=
  (l.reverse.find? (fun p => p.1 == k)).map (fun p => p.2)

theorem assocGet_merge {κ α : Type} [DecidableEq κ] (a b : List (κ × α)) (k : κ) :
    assocGet? (dictMerge a b) k =
      match lastGet? b k with
      | some v => some v
      | none => assocGet? a k := by
  induction b generalizing a with
  | nil => simp [dictMerge, lastGet?]
  | cons p t ih =>
    have hstep : dictMerge a (p :: t) = dictMerge (assocSet a p.1 p.2) t := rfl
    rw [hstep, ih]
    have hrev : lastGet? (p :: t) k =
        match lastGet? t k with
        | some v => some v
        | none => if p.1 == k then some p.2 else none := by
      unfold lastGet?
      rw [List.reverse_cons, List.find?_append]
      cases htr : t.reverse.find? (fun q => q.1 == k) with
      | some q => simp [Option.or]
      | none =>
        simp only [Option.map_none, Option.or]
        by_cases hp : p.1 == k
        · simp [List.find?, hp]
        · simp [List.find?, hp]
    rw [hrev]
    cases htk : lastGet? t k with
    | some v => simp
    | none =>
      by_cases hp : p.1 == k
      · have : k = p.1 := (beq_iff_eq.mp hp).symm
        subst this
        simp [assocGet_set_self]
      · have hne : k ≠ p.1 := fun hkk => hp (beq_iff_eq.mpr hkk.symm)
        simp [hp, assocGet_set_other a p.1 k p.2 hne]

theorem assocGet_append_left {κ α : Type} [DecidableEq κ]
    (l l' : List (κ × α)) (k : κ) (v : α) (h : assocGet? l k = some v) :
    assocGet? (l ++ l') k = some v := by
  unfold assocGet? at h ⊢
  rw [List.find?_append]
  cases hf : l.find? (fun p => p.1 == k) with
  | none => rw [hf] at h; simp at h
  | some q => rw [hf] at h; simpa [Option.or] using h

/-! Helper lemmas about `pyMinBy` and the timing-triple order. -/

/-- `PFloat` as an element of `WithTop ℚ` (the order Python's float
comparisons realize on these values). -/
def PFloat.toW : PFloat → WithTop ℚ
  | .fin q => (q : WithTop ℚ)
  | .inf => ⊤

theorem pf_ltB_iff (a b : PFloat) : PFloat.ltB a b = true ↔ a.toW < b.toW := by
  cases a <;> cases b <;>
    simp [PFloat.ltB, PFloat.toW, WithTop.coe_lt_coe, WithTop.coe_lt_top]

/-- The lexicographic key a timing triple compares by. -/
def tKey (t : Triple) : WithTop ℚ ×ₗ (WithTop ℚ ×ₗ WithTop ℚ) :=
  toLex (t.1.toW, toLex (t.2.1.toW, t.2.2.toW))

theorem pf_toW_inj {a b : PFloat} (h : a.toW = b.toW) : a = b := by
  cases a <;> cases b <;> simp_all [PFloat.toW]

theorem triple_ltB_iff (u v : Triple) : tripleLtB u v = true ↔ tKey u < tKey v := by
  unfold tripleLtB tKey
  rw [Prod.Lex.lt_iff, Prod.Lex.lt_iff]
  simp only [ofLex_toLex]
  by_cases h1 : u.1 = v.1
  · by_cases h2 : u.2.1 = v.2.1
    · rw [if_pos h1, if_pos h2, pf_ltB_iff]
      constructor
      · intro h
        exact Or.inr ⟨by rw [h1], Or.inr ⟨by rw [h2], h⟩⟩
      · rintro (h | ⟨_, h | ⟨_, h⟩⟩)
        · rw [h1] at h
          exact absurd h (lt_irrefl _)
        · rw [h2] at h
          exact absurd h (lt_irrefl _)
        · exact h
    · rw [if_pos h1, if_neg h2, pf_ltB_iff]
      constructor
      · intro h
        exact Or.inr ⟨by rw [h1], Or.inl h⟩
      · rintro (h | ⟨_, h | ⟨hw, _⟩⟩)
        · rw [h1] at h
          exact absurd h (lt_irrefl _)
        · exact h
        · exact absurd (pf_toW_inj hw) h2
  · rw [if_neg h1, pf_ltB_iff]
    constructor
    · intro h
      exact Or.inl h
    · rintro (h | ⟨hw, _⟩)
      · exact h
      · exact absurd (pf_toW_inj hw) h1

theorem foldl_min_mem {α β : Type} (f : α → β) (ltB : β → β → Bool) :
    ∀ (xs : List α) (b : α),
      xs.foldl (fun b y => if ltB (f y) (f b) then y else b) b ∈ b :: xs := by
  intro xs
  induction xs with
  | nil =>
    intro b
    simp
  | cons y ys ih =>
    intro b
    simp only [List.foldl]
    by_cases hb : ltB (f y) (f b)
    · rw [if_pos hb]
      rcases List.mem_cons.mp (ih y) with hm | hm
      · rw [hm]
        simp
      · simp [hm]
    · rw [if_neg hb]
      rcases List.mem_cons.mp (ih b) with hm | hm
      · rw [hm]
        simp
      · simp [hm]

theorem pyMinBy_mem {α β : Type} (l : List α) (f : α → β) (ltB : β → β → Bool)
    (m : α) (h : pyMinBy l f ltB = some m) : m ∈ l := by
  match l with
  | [] => simp [pyMinBy] at h
  | x :: xs =>
    simp only [pyMinBy, Option.some_inj] at h
    rw [← h]
    exact foldl_min_mem f ltB xs x

/-- Characterization of Python's `min(l, key=f)` when the comparison realizes
a linear order through a key `g`: the result is the first element attaining
the minimum — every strictly earlier element is strictly greater, and no
element is strictly smaller. -/
theorem pyMinBy_split {α β γ : Type} [LinearOrder γ] (f : α → β)
    (ltB : β → β → Bool) (g : β → γ)
    (hg : ∀ u v, ltB u v = true ↔ g u < g v) :
    ∀ (xs : List α) (x : α), ∃ m l₁ l₂,
      pyMinBy (x :: xs) f ltB = some m ∧ x :: xs = l₁ ++ m :: l₂ ∧
      (∀ y ∈ l₁, g (f m) < g (f y)) ∧ (∀ y ∈ x :: xs, g (f m) ≤ g (f y)) := by
  intro xs
  induction xs with
  | nil =>
    intro x
    exact ⟨x, [], [], rfl, rfl, by simp, by simp⟩
  | cons y ys ih =>
    intro x
    have hfold : pyMinBy (x :: y :: ys) f ltB =
        pyMinBy ((if ltB (f y) (f x) then y else x) :: ys) f ltB := rfl
    obtain ⟨m, l₁, l₂, hmin, hsplit, hpre, hle⟩ :=
      ih (if ltB (f y) (f x) then y else x)
    by_cases hxy : ltB (f y) (f x)
    · rw [if_pos hxy] at hmin hsplit hle hfold
      have hyx : g (f y) < g (f x) := (hg _ _).mp hxy
      have hmy : g (f m) ≤ g (f y) := hle y (by simp)
      refine ⟨m, x :: l₁, l₂, hfold.trans hmin, ?_, ?_, ?_⟩
      · rw [List.cons_append, ← hsplit]
      · intro z hz
        rcases List.mem_cons.mp hz with hz | hz
        · rw [hz]
          exact lt_of_le_of_lt hmy hyx
        · exact hpre z hz
      · intro z hz
        rcases List.mem_cons.mp hz with hz | hz
        · rw [hz]
          exact le_of_lt (lt_of_le_of_lt hmy hyx)
        · exact hle z hz
    · rw [if_neg hxy] at hmin hsplit hle hfold
      have hxyle : g (f x) ≤ g (f y) := not_lt.mp (fun hc => hxy ((hg _ _).mpr hc))
      match l₁, hsplit with
      | [], hsplit =>
        have hmx : m = x := by
          have := congrArg (fun l => l.head?) hsplit
          simpa using this.symm
        have hl₂ : l₂ = ys := by
          have := congrArg (fun l => l.tail) hsplit
          simpa using this.symm
        refine ⟨m, [], y :: ys, hfold.trans hmin, by simp [hmx], by simp, ?_⟩
        intro z hz
        rcases List.mem_cons.mp hz with hz | hz
        · rw [hz, hmx]
        · rcases List.mem_cons.mp hz with hz | hz
          · rw [hz, hmx]
            exact hxyle
          · exact hle z (by simp [hz])
      | x₁ :: l₁', hsplit =>
        have hx₁ : x₁ = x := by
          have := congrArg (fun l => l.head?) hsplit
          simpa using this.symm
        have hys : ys = l₁' ++ m :: l₂ := by
          have := congrArg (fun l => l.tail) hsplit
          simpa using this
        have hmx : g (f m) < g (f x) := hpre x (by rw [hx₁] at hsplit ⊢; simp)
        refine ⟨m, x :: y :: l₁', l₂, hfold.trans hmin, ?_, ?_, ?_⟩
        · simp [hys]
        · intro z hz
          rcases List.mem_cons.mp hz with hz | hz
          · rw [hz]
            exact hmx
          · rcases List.mem_cons.mp hz with hz | hz
            · rw [hz]
              exact lt_of_lt_of_le hmx hxyle
            · exact hpre z (by rw [hx₁]; simp [hz])
        · intro z hz
          rcases List.mem_cons.mp hz with hz | hz
          · rw [hz]
            exact le_of_lt hmx
          · rcases List.mem_cons.mp hz with hz | hz
            · rw [hz]
              exact le_of_lt (lt_of_lt_of_le hmx hxyle)
            · exact hle z (by simp [hz])

/-! Helper lemmas about `hintItems` and `all_kwargs`. -/

theorem lastGet?_eq_some_of {κ α : Type} [DecidableEq κ] (l : List (κ × α))
    (k : κ) (v : α) (hmem : ∃ p ∈ l, p.1 = k)
    (huniq : ∀ p ∈ l, p.1 = k → p.2 = v) : lastGet? l k = some v := by
  unfold lastGet?
  obtain ⟨p, hp, hpk⟩ := hmem
  have hsome : (l.reverse.find? (fun q => q.1 == k)).isSome := by
    rw [List.find?_isSome]
    exact ⟨p, List.mem_reverse.mpr hp, beq_iff_eq.mpr hpk⟩
  obtain ⟨q, hq⟩ := Option.isSome_iff_exists.mp hsome
  have hqt := List.find?_some hq
  have hqk : q.1 = k := beq_iff_eq.mp hqt
  have hqmem : q ∈ l := List.mem_reverse.mp (List.mem_of_find?_eq_some hq)
  rw [hq]
  simp [huniq q hqmem hqk]

theorem lastGet?_eq_none {κ α : Type} [DecidableEq κ] (l : List (κ × α))
    (k : κ) (h : ∀ p ∈ l, p.1 ≠ k) : lastGet? l k = none := by
  unfold lastGet?
  have hnone : l.reverse.find? (fun q => q.1 == k) = none := by
    rw [List.find?_eq_none]
    intro p hp
    simp only [Bool.not_eq_true, beq_eq_false_iff_ne, ne_eq]
    exact h p (List.mem_reverse.mp hp)
  rw [hnone]
  rfl

theorem lastGet?_mem {κ α : Type} [DecidableEq κ] (l : List (κ × α)) (k : κ)
    (v : α) (h : lastGet? l k = some v) : ∃ p ∈ l, p.1 = k ∧ p.2 = v := by
  unfold lastGet? at h
  cases hf : l.reverse.find? (fun q => q.1 == k) with
  | none => rw [hf] at h; simp at h
  | some q =>
    rw [hf] at h
    simp at h
    have hqt := List.find?_some hf
    exact ⟨q, List.mem_reverse.mp (List.mem_of_find?_eq_some hf),
      beq_iff_eq.mp hqt, h⟩

theorem hintItems_val (c : Config) (p : String × PyVal) (hp : p ∈ c.hintItems) :
    (∃ n : Int, p.2 = PyVal.vInt n) ∧ p.1 ∈ hintNames := by
  rcases List.mem_filterMap.mp hp with ⟨a, ha, hfa⟩
  obtain ⟨n, hn, hpn⟩ := Option.map_eq_some'.mp hfa
  refine ⟨⟨n, by rw [← hpn]⟩, ?_⟩
  have hmem : a.1 ∈ hintNames := by
    simp only [Config.hintFields, List.mem_cons, List.not_mem_nil, or_false] at ha
    rcases ha with h | h | h | h | h | h | h | h <;> rw [h] <;> simp [hintNames]
  rw [← hpn]
  exact hmem

theorem hintItems_num_warps (c : Config) (n : Int) (h : c.num_warps = some n) :
    lastGet? c.hintItems "num_warps" = some (PyVal.vInt n) := by
  apply lastGet?_eq_some_of
  · exact ⟨("num_warps", PyVal.vInt n), List.mem_filterMap.mpr
      ⟨("num_warps", c.num_warps), by simp [Config.hintFields], by simp [h]⟩, rfl⟩
  · intro p hp hk
    rcases List.mem_filterMap.mp hp with ⟨a, ha, hfa⟩
    obtain ⟨m, hm, hpm⟩ := Option.map_eq_some'.mp hfa
    have hka : a.1 = "num_warps" := by rw [← hpm] at hk; exact hk
    simp only [Config.hintFields, List.mem_cons, List.not_mem_nil, or_false] at ha
    rcases ha with h' | h' | h' | h' | h' | h' | h' | h'
    · subst h'
      rw [h] at hm
      rw [← hpm]
      exact congrArg PyVal.vInt (Option.some.inj hm).symm
    all_goals (subst h'; simp at hka)

/-! Claim C5. -/

/-- C5 counterexample: constructing a `Config` whose `kwargs` contains the
compiler-hint name `num_warps` SUCCEEDS — `Config.__init__` stores the
conflicting mapping verbatim and raises nothing — although the input is a
conflicting combination (witnessed by the key scan and by the spec-modelled
checked constructor rejecting it).  This falsifies the claim that every such
construction fails. -/
theorem c5_counterexample :
    Config.init [("num_warps", PyVal.vInt 8)] (some 4) (some 2) (some 1)
        (some 0) (some 0) (some 0) (some 0) none false =
      { kwargs := [("num_warps", PyVal.vInt 8)] } ∧
    (assocKeys [("num_warps", PyVal.vInt 8)]).any
        (fun k => hintNames.contains k) = true ∧
    Config.initChecked [("num_warps", PyVal.vInt 8)] (some 4) (some 2) (some 1)
        (some 0) (some 0) (some 0) (some 0) none false =
      Except.error "conflict" := by
  refine ⟨rfl, by decide, rfl⟩

/-- C5 (amended): `Config.__init__` performs no conflict check — construction
always succeeds, storing every field verbatim; a `kwargs` name colliding with
a compiler hint is silently overridden by the hint's (non-null) value in
`all_kwargs` instead of being rejected. -/
theorem c5_theorem (kw : PyDict) (nw ns nc nb ng rd ri mx : Option Int)
    (ph : Bool) :
    (Config.init kw nw ns nc nb ng rd ri mx ph).kwargs = kw ∧
    (Config.init kw nw ns nc nb ng rd ri mx ph).num_warps = nw ∧
    (Config.init kw nw ns nc nb ng rd ri mx ph).num_stages = ns ∧
    (Config.init kw nw ns nc nb ng rd ri mx ph).num_ctas = nc ∧
    (Config.init kw nw ns nc nb ng rd ri mx ph).maxnreg = mx ∧
    (∀ n : Int, nw = some n →
      assocGet? (Config.init kw nw ns nc nb ng rd ri mx ph).all_kwargs
        "num_warps" = some (PyVal.vInt n)) := by
  refine ⟨rfl, rfl, rfl, rfl, rfl, ?_⟩
  intro n hn
  rw [Config.all_kwargs, assocGet_merge,
    hintItems_num_warps (Config.init kw nw ns nc nb ng rd ri mx ph) n hn]

/-- C5 witness: the amended theorem at a concrete conflicting input — the
hint value 4 wins over the conflicting kwargs entry. -/
theorem c5_witness :
    assocGet? (Config.init [("num_warps", PyVal.vInt 8)] (some 4) (some 2)
        (some 1) (some 0) (some 0) (some 0) (some 0) none false).all_kwargs
      "num_warps" = some (PyVal.vInt 4) :=
  ( c5_theorem [("num_warps", PyVal.vInt 8)] (some 4) (some 2) (some 1)
    (some 0) (some 0) (some 0) (some 0) none false).2.2.2.2.2 4 rfl

/-! Claim C8. -/

/-- C8 counterexample: for a `Config` whose own `kwargs` maps `"X"` to
`None`, `all_kwargs()` maps `"X"` to `None` — so the mapping CAN contain a
key mapped to null, falsifying the claim's "whatever values its kwargs
mapping holds". -/
theorem c8_counterexample :
    assocGet? (Config.all_kwargs { kwargs := [("X", PyVal.vNone)] }) "X" =
      some PyVal.vNone := by
  decide

/-- C8 (amended): `all_kwargs` is `kwargs` overridden by exactly the
non-null compiler hints; every hint contribution is an integer (never null),
a non-hint key resolves to its `kwargs` binding, a null value can only come
from `kwargs` itself, and when `kwargs` holds no null values `all_kwargs`
holds none. -/
theorem c8_theorem (c : Config) :
    (∀ p ∈ c.hintItems, ∃ n : Int, p.2 = PyVal.vInt n) ∧
    (c.all_kwargs = dictMerge c.kwargs c.hintItems) ∧
    (∀ k, k ∉ hintNames → assocGet? c.all_kwargs k = assocGet? c.kwargs k) ∧
    (∀ k, assocGet? c.all_kwargs k = some PyVal.vNone →
      assocGet? c.kwargs k = some PyVal.vNone) ∧
    ((∀ p ∈ c.kwargs, p.2 ≠ PyVal.vNone) →
      ∀ k v, assocGet? c.all_kwargs k = some v → v ≠ PyVal.vNone) := by
  have hval : ∀ p ∈ c.hintItems, ∃ n : Int, p.2 = PyVal.vInt n :=
    fun p hp => (hintItems_val c p hp).1
  have hnull : ∀ k, assocGet? c.all_kwargs k = some PyVal.vNone →
      assocGet? c.kwargs k = some PyVal.vNone := by
    intro k hk
    rw [Config.all_kwargs, assocGet_merge] at hk
    cases hg : lastGet? c.hintItems k with
    | none => rw [hg] at hk; exact hk
    | some v =>
      rw [hg] at hk
      simp only at hk
      obtain ⟨p, hp, _, hpv⟩ := lastGet?_mem c.hintItems k v hg
      obtain ⟨n, hn⟩ := hval p hp
      rw [hpv] at hn
      rw [hn] at hk
      simp at hk
  refine ⟨hval, rfl, ?_, hnull, ?_⟩
  · intro k hk
    rw [Config.all_kwargs, assocGet_merge]
    have hg : lastGet? c.hintItems k = none := by
      apply lastGet?_eq_none
      intro p hp hpk
      exact hk (hpk ▸ (hintItems_val c p hp).2)
    rw [hg]
  · intro hkw k v hv hveq
    rw [hveq] at hv
    have := hnull k hv
    obtain ⟨p, hp, _, hpv⟩ : ∃ p ∈ c.kwargs, p.1 = k ∧ p.2 = PyVal.vNone := by
      unfold assocGet? at this
      cases hf : c.kwargs.find? (fun p => p.1 == k) with
      | none => rw [hf] at this; simp at this
      | some q =>
        rw [hf] at this
        simp at this
        have hqt := List.find?_some hf
        exact ⟨q, List.mem_of_find?_eq_some hf, beq_iff_eq.mp hqt, this⟩
    exact hkw p hp hpv

/-- C8 witness: the amended theorem at a concrete config — a non-hint key
resolves to its `kwargs` binding. -/
theorem c8_witness :
    assocGet? (Config.all_kwargs { kwargs := [("BLOCK", PyVal.vInt 128)] })
      "BLOCK" = assocGet? ([("BLOCK", PyVal.vInt 128)] : PyDict) "BLOCK" :=
  ( c8_theorem { kwargs := [("BLOCK", PyVal.vInt 128)] }).2.2.1 "BLOCK"
    (by decide)

/-! Claim C9. -/

/-- C9: for every candidate measured by `_bench` (with no kwargs conflict,
which would raise beforehand): `OutOfResources` and
`CompileTimeAssertionFailure` from the benchmarked closure yield the
`(inf, inf, inf)` triple without propagating; a normal benchmark result is
returned as-is; any other exception propagates. -/
theorem c9_theorem (meta : PyDict) (config : Config)
    (hnc : (assocKeys meta).any
      (fun k => (assocKeys config.kwargs).contains k) = false) :
    bench meta config .oor = .ok infTriple ∧
    bench meta config .ctaf = .ok infTriple ∧
    (∀ t, bench meta config (.ok t) = .ok t) ∧
    bench meta config .other = .error .otherException := by
  unfold bench
  rw [hnc]
  exact ⟨rfl, rfl, fun t => rfl, rfl⟩

/-- C9 witness: the theorem at a concrete conflict-free call. -/
theorem c9_witness :
    bench [("N", PyVal.vInt 3)] { kwargs := [("BLOCK", PyVal.vInt 64)] }
      .oor = .ok infTriple :=
  ( c9_theorem [("N", PyVal.vInt 3)] { kwargs := [("BLOCK", PyVal.vInt 64)] }
    (by decide)).1

/-! Claim C10. -/

/-- C10: an autotuner constructed with an empty or `None` candidate list
holds exactly the one default `Config` (empty kwargs, `num_warps 4`,
`num_stages 2`, `num_ctas 1`, warp-specialization and register fields 0, no
`maxnreg`, no `pre_hook`); and the exhaustive policy with a single candidate
takes the fast path: it benchmarks nothing, extracts no key, leaves the
cache untouched and executes that candidate. -/
theorem c10_theorem (arg_names key : List String)
    (rz rv : Option (List String)) (ph qh : Option Nat)
    (pcb : Option PruneSpec) (w r : Option Nat) (ucg : Bool) (db : Option Nat)
    (cfgs : Option (List Config)) (hcfg : cfgs = none ∨ cfgs = some []) :
    (baseInit arg_names cfgs key rz rv ph qh pcb w r ucg db).configs =
      [defaultConfig] ∧
    defaultConfig.kwargs = [] ∧
    defaultConfig.num_warps = some 4 ∧
    defaultConfig.num_stages = some 2 ∧
    defaultConfig.num_ctas = some 1 ∧
    defaultConfig.num_buffers_warp_spec = some 0 ∧
    defaultConfig.num_consumer_groups = some 0 ∧
    defaultConfig.reg_dec_producer = some 0 ∧
    defaultConfig.reg_inc_consumer = some 0 ∧
    defaultConfig.maxnreg = none ∧
    defaultConfig.pre_hook = false ∧
    (∀ (keys : List String) (cfg : Nat → Config)
      (cache : List (List PyVal × Nat)) (args : List PyVal) (kwargs : PyDict)
      (ps : List Nat) (benchO : Nat → BenchOutcome)
      (launch : Except PyErr RVal),
      (autotunerRun arg_names keys [0] cfg cache args kwargs ps benchO
        launch).benched = [] ∧
      (autotunerRun arg_names keys [0] cfg cache args kwargs ps benchO
        launch).keyUsed = none ∧
      (autotunerRun arg_names keys [0] cfg cache args kwargs ps benchO
        launch).cache = cache ∧
      (autotunerRun arg_names keys [0] cfg cache args kwargs ps benchO
        launch).executed = some 0) := by
  constructor
  · rcases hcfg with h | h <;> rw [h] <;> rfl
  refine ⟨rfl, rfl, rfl, rfl, rfl, rfl, rfl, rfl, rfl, rfl, ?_⟩
  intro keys cfg cache args kwargs ps benchO launch
  cases launch <;> exact ⟨rfl, rfl, rfl, rfl⟩

/-- C10 witness: the theorem at a concrete instantiation with a `None`
candidate list. -/
theorem c10_witness :
    (baseInit ["x"] none ["x"] none none none none none none none false
      none).configs = [defaultConfig] :=
  ( c10_theorem ["x"] ["x"] none none none none none none none false none
    none (Or.inl rfl)).1

/-! Claim C6. -/

/-- C6 counterexample: the facade's inner `decorator` construction of the
stepwise policy yields `min_try = 20` (the constructor default), while the
spec-modelled facade that forwards a user-supplied `min_try = 5` yields 5;
the source `autotune` has no parameter through which the user's value could
reach the instance. -/
theorem c6_counterexample :
    (autotuneDecorate { configs := none, key := ["x"] } ["x"]
      "stepwise").map tunerMinTry = .ok (some 20) ∧
    (specAutotuneDecorate { configs := none, key := ["x"] } ["x"] 5 1
      (1 / 1000) 3 "stepwise").map tunerMinTry = .ok (some 5) ∧
    decide ((20 : Nat) = 5) = false := by
  exact ⟨rfl, rfl, rfl⟩

/-- C6 (amended): for the stepwise/epsilon/confidence names, the facade
constructs the policy with the user-supplied candidate list, key names,
reset/restore/hook configuration and pruning callbacks (via the shared base
initializer), but every policy-specific hyperparameter takes its constructor
default — `min_try = 20`, `epsilon = 1.0`, `decay = 0.001`, `ratio = 3.0` —
and the facade's `do_bench` argument is not forwarded either (the base
initializer runs with `do_bench = None`, so the benchmarker is never the
user-supplied one). -/
theorem c6_theorem (a : AutotuneArgs) (names : List String) :
    autotuneDecorate a names "stepwise" =
      .ok (.stepwise (baseInit names a.configs a.key a.reset_to_zero
        a.restore_value a.pre_hook a.post_hook a.prune_configs_by a.warmup
        a.rep a.use_cuda_graph none) 20) ∧
    autotuneDecorate a names "epsilon" =
      .ok (.epsilon (baseInit names a.configs a.key a.reset_to_zero
        a.restore_value a.pre_hook a.post_hook a.prune_configs_by a.warmup
        a.rep a.use_cuda_graph none) 1 (1 / 1000)) ∧
    autotuneDecorate a names "confidence" =
      .ok (.confidence (baseInit names a.configs a.key a.reset_to_zero
        a.restore_value a.pre_hook a.post_hook a.prune_configs_by a.warmup
        a.rep a.use_cuda_graph none) 3) ∧
    (baseInit names a.configs a.key a.reset_to_zero a.restore_value
        a.pre_hook a.post_hook a.prune_configs_by a.warmup a.rep
        a.use_cuda_graph none).keys = a.key ∧
    ((baseInit names a.configs a.key a.reset_to_zero a.restore_value
        a.pre_hook a.post_hook a.prune_configs_by a.warmup a.rep
        a.use_cuda_graph none).benchSource = .cudaGraph ∨
      (baseInit names a.configs a.key a.reset_to_zero a.restore_value
        a.pre_hook a.post_hook a.prune_configs_by a.warmup a.rep
        a.use_cuda_graph none).benchSource = .testingDoBench ∨
      (baseInit names a.configs a.key a.reset_to_zero a.restore_value
        a.pre_hook a.post_hook a.prune_configs_by a.warmup a.rep
        a.use_cuda_graph none).benchSource = .driverDefault) := by
  refine ⟨rfl, rfl, rfl, rfl, ?_⟩
  have hbs : (baseInit names a.configs a.key a.reset_to_zero a.restore_value
      a.pre_hook a.post_hook a.prune_configs_by a.warmup a.rep
      a.use_cuda_graph none).benchSource =
      (if a.warmup.isSome ∨ a.rep.isSome ∨ a.use_cuda_graph then
        if a.use_cuda_graph then BenchSource.cudaGraph
        else BenchSource.testingDoBench
      else BenchSource.driverDefault) := rfl
  rw [hbs]
  by_cases h : a.warmup.isSome ∨ a.rep.isSome ∨ a.use_cuda_graph
  · by_cases hu : a.use_cuda_graph
    · left
      rw [if_pos h, if_pos hu]
    · right
      left
      rw [if_pos h, if_neg hu]
  · right
    right
    rw [if_neg h]

/-! Claim C1. -/

theorem benchAll_map_fst (meta : PyDict) (cfg : Nat → Config)
    (benchO : Nat → BenchOutcome) :
    ∀ (ps : List Nat) (ts : List (Nat × Triple)),
      benchAll meta cfg benchO ps = .ok ts → ts.map Prod.fst = ps := by
  intro ps
  induction ps with
  | nil =>
    intro ts h
    simp only [benchAll] at h
    cases h
    rfl
  | cons c cs ih =>
    intro ts h
    unfold benchAll at h
    cases hb : bench meta (cfg c) (benchO c) with
    | error e => rw [hb] at h; simp at h
    | ok t =>
      rw [hb] at h
      cases hr : benchAll meta cfg benchO cs with
      | error p => rw [hr] at h; simp at h
      | ok ts' =>
        rw [hr] at h
        simp only [Except.ok.injEq] at h
        rw [← h, List.map_cons, ih ts' hr]

/-- C1 counterexample: exhaustive tuning with two pruned candidates whose
benchmarked MEDIANS tie (both 5) but whose p20 differ.  The claim says the
stored config is the first-seen among minimum-median candidates (config 0);
the code stores config 1, because `min(timings, key=timings.get)` compares
the whole `[median, p20, p80]` list lexicographically. -/
theorem c1_counterexample :
    (autotunerRun ["x"] ["x"] [0, 1] (fun _ => defaultConfig) []
      [PyVal.vInt 7] [] [0, 1]
      (fun c => if c = 0 then .ok (.fin 5, .fin 3, .fin 7)
        else .ok (.fin 5, .fin 2, .fin 7))
      (.ok .rTruthy)).cache = [([PyVal.vInt 7], 1)] ∧
    specPickMedian [(0, (.fin 5, .fin 3, .fin 7)),
      (1, (.fin 5, .fin 2, .fin 7))] = some 0 ∧
    decide ((1 : Nat) = 0) = false := by
  refine ⟨by decide, by decide, rfl⟩

/-- C1 (amended): in the exhaustive policy, on a cache miss the config
stored for the key is, among the pruned candidates, the one whose
`(median, p20, p80)` triple is lexicographically minimal — in particular its
median is minimal — with ties on the median broken by the smaller
`(p20, p80)` and only full-triple ties broken by first-seen order (every
candidate benchmarked strictly before the stored one has a strictly larger
triple). -/
theorem c1_theorem (arg_names keys : List String) (configs : List Nat)
    (cfg : Nat → Config) (cache : List (List PyVal × Nat))
    (args : List PyVal) (kwargs : PyDict) (ps : List Nat)
    (benchO : Nat → BenchOutcome) (launch : Except PyErr RVal)
    (hlen : 1 < configs.length)
    (hmiss : assocGet? cache (getKey arg_names keys
      (dictMerge (zipDict arg_names args) kwargs)) = none)
    (ts : List (Nat × Triple))
    (hbench : benchAll kwargs cfg benchO ps = .ok ts)
    (hne : ts ≠ []) :
    ∃ (m : Nat × Triple) (l₁ l₂ : List (Nat × Triple)),
      ts = l₁ ++ m :: l₂ ∧
      (autotunerRun arg_names keys configs cfg cache args kwargs ps benchO
        launch).cache = cache ++
        [(getKey arg_names keys (dictMerge (zipDict arg_names args) kwargs),
          m.1)] ∧
      (autotunerRun arg_names keys configs cfg cache args kwargs ps benchO
        launch).executed = some m.1 ∧
      ts.map Prod.fst = ps ∧
      (∀ y ∈ ts, tKey m.2 ≤ tKey y.2) ∧
      (∀ y ∈ l₁, tKey m.2 < tKey y.2) ∧
      (∀ y ∈ ts, (m.2.1).toW ≤ (y.2.1).toW) := by
  match ts, hne with
  | x :: xs, _ =>
    obtain ⟨m, l₁, l₂, hmin, hsplit, hpre, hle⟩ :=
      pyMinBy_split (fun p : Nat × Triple => p.2) tripleLtB tKey
        triple_ltB_iff xs x
    have hc : (autotunerRun arg_names keys configs cfg cache args kwargs ps
        benchO launch).cache = cache ++
        [(getKey arg_names keys (dictMerge (zipDict arg_names args) kwargs),
          m.1)] := by
      unfold autotunerRun
      simp only [hlen, if_true, hmiss, hbench, hmin]
      cases launch <;> rfl
    have he : (autotunerRun arg_names keys configs cfg cache args kwargs ps
        benchO launch).executed = some m.1 := by
      unfold autotunerRun
      simp only [hlen, if_true, hmiss, hbench, hmin]
      cases launch <;> rfl
    refine ⟨m, l₁, l₂, hsplit, hc, he,
      benchAll_map_fst kwargs cfg benchO ps (x :: xs) hbench, hle, hpre, ?_⟩
    intro y hy
    rcases Prod.Lex.le_iff (tKey m.2) (tKey y.2) |>.mp (hle y hy) with h | ⟨h, _⟩
    · exact le_of_lt h
    · exact le_of_eq h

/-- C1 witness: the amended theorem at the counterexample's concrete
input — the stored config is 1 and its lexicographic minimality facts hold. -/
theorem c1_witness :
    ∃ (m : Nat × Triple) (l₁ l₂ : List (Nat × Triple)),
      [(0, ((.fin 5 : PFloat), (.fin 3 : PFloat), (.fin 7 : PFloat))),
        (1, ((.fin 5 : PFloat), (.fin 2 : PFloat), (.fin 7 : PFloat)))] =
        l₁ ++ m :: l₂ ∧
      (autotunerRun ["x"] ["x"] [0, 1] (fun _ => defaultConfig) []
        [PyVal.vInt 7] [] [0, 1]
        (fun c => if c = 0 then .ok (.fin 5, .fin 3, .fin 7)
          else .ok (.fin 5, .fin 2, .fin 7))
        (.ok .rTruthy)).cache = [] ++
        [(getKey ["x"] ["x"]
          (dictMerge (zipDict ["x"] [PyVal.vInt 7]) []), m.1)] ∧
      (autotunerRun ["x"] ["x"] [0, 1] (fun _ => defaultConfig) []
        [PyVal.vInt 7] [] [0, 1]
        (fun c => if c = 0 then .ok (.fin 5, .fin 3, .fin 7)
          else .ok (.fin 5, .fin 2, .fin 7))
        (.ok .rTruthy)).executed = some m.1 ∧
      ([(0, ((.fin 5 : PFloat), (.fin 3 : PFloat), (.fin 7 : PFloat))),
        (1, ((.fin 5 : PFloat), (.fin 2 : PFloat), (.fin 7 : PFloat)))].map
          Prod.fst = [0, 1]) ∧
      (∀ y ∈ [(0, ((.fin 5 : PFloat), (.fin 3 : PFloat), (.fin 7 : PFloat))),
        (1, ((.fin 5 : PFloat), (.fin 2 : PFloat), (.fin 7 : PFloat)))],
        tKey m.2 ≤ tKey y.2) ∧
      (∀ y ∈ l₁, tKey m.2 < tKey y.2) ∧
      (∀ y ∈ [(0, ((.fin 5 : PFloat), (.fin 3 : PFloat), (.fin 7 : PFloat))),
        (1, ((.fin 5 : PFloat), (.fin 2 : PFloat), (.fin 7 : PFloat)))],
        (m.2.1).toW ≤ (y.2.1).toW) :=
  c1_theorem ["x"] ["x"] [0, 1] (fun _ => defaultConfig) [] [PyVal.vInt 7]
    [] [0, 1]
    (fun c => if c = 0 then .ok (.fin 5, .fin 3, .fin 7)
      else .ok (.fin 5, .fin 2, .fin 7))
    (.ok .rTruthy) (by decide) (by decide)
    [(0, (.fin 5, .fin 3, .fin 7)), (1, (.fin 5, .fin 2, .fin 7))]
    rfl (by decide)

/-! Claim C7. -/

theorem autotunerRun_ok_nargs (arg_names keys : List String)
    (configs : List Nat) (cfg : Nat → Config)
    (cache : List (List PyVal × Nat)) (args : List PyVal) (kwargs : PyDict)
    (ps : List Nat) (benchO : Nat → BenchOutcome) (launch : Except PyErr RVal)
    (v : RVal)
    (h : (autotunerRun arg_names keys configs cfg cache args kwargs ps benchO
      launch).res = .ok v) :
    (autotunerRun arg_names keys configs cfg cache args kwargs ps benchO
      launch).nargsFinal = none := by
  unfold autotunerRun at h ⊢
  by_cases hlen : 1 < configs.length
  · simp only [hlen, if_true] at h ⊢
    cases hget : assocGet? cache (getKey arg_names keys
        (dictMerge (zipDict arg_names args) kwargs)) with
    | some c =>
      simp only [hget] at h ⊢
      cases launch with
      | error e => simp at h
      | ok w => rfl
    | none =>
      cases hb : benchAll kwargs cfg benchO ps with
      | error p =>
        simp only [hget, hb] at h
        exact Except.noConfusion h
      | ok ts =>
        cases hm : pyMinBy ts (fun p => p.2) tripleLtB with
        | none =>
          simp only [hget, hb, hm] at h
          exact Except.noConfusion h
        | some best =>
          simp only [hget, hb, hm] at h ⊢
          cases launch with
          | error e => simp at h
          | ok w => rfl
  · simp only [hlen, if_false] at h ⊢
    cases hh : configs.head? with
    | none =>
      simp only [hh] at h
      exact Except.noConfusion h
    | some c =>
      simp only [hh] at h ⊢
      cases launch with
      | error e => simp at h
      | ok w => rfl

theorem stepwiseRun_fin_nargs (min_try : Nat) (arg_names : List String)
    (args : List PyVal) (ps : List Nat) (os : List IterO) (s : TCache)
    (v : RVal)
    (h : (stepwiseRun min_try arg_names args ps os s).res = .finished v) :
    (stepwiseRun min_try arg_names args ps os s).nargsFinal = none := by
  unfold stepwiseRun at h ⊢
  cases s with
  | decided c =>
    simp only at h ⊢
    rw [h]
  | deciding e =>
    simp only at h ⊢
    rw [h]

theorem confidenceRun_fin_nargs (ratio : ℚ) (arg_names : List String)
    (args : List PyVal) (ps : List Nat) (os : List IterO) (s : TCache)
    (v : RVal)
    (h : (confidenceRun ratio arg_names args ps os s).res = .finished v) :
    (confidenceRun ratio arg_names args ps os s).nargsFinal = none := by
  unfold confidenceRun at h ⊢
  cases s with
  | decided c =>
    simp only at h ⊢
    rw [h]
  | deciding e =>
    simp only at h ⊢
    rw [h]

/-- C7 counterexample: a successful `EpsilonAutotuner.run` returns with
`self.nargs` still populated — `nargsFinal` is the populated dict, not
`None` — falsifying the claim for the epsilon policy. -/
theorem c7_counterexample :
    (epsilonRun 1 (1 / 1000) ["x"] [PyVal.vInt 7] [5, 9]
      [⟨0, 0, .ret .rTruthy, 10⟩] none).res = .finished .rTruthy ∧
    (epsilonRun 1 (1 / 1000) ["x"] [PyVal.vInt 7] [5, 9]
      [⟨0, 0, .ret .rTruthy, 10⟩] none).nargsFinal =
      some [("x", PyVal.vInt 7)] ∧
    Option.isNone ((epsilonRun 1 (1 / 1000) ["x"] [PyVal.vInt 7] [5, 9]
      [⟨0, 0, .ret .rTruthy, 10⟩] none).nargsFinal) = false := by
  refine ⟨by decide, by decide, by decide⟩

/-- C7 (amended): every policy populates `nargs` from the positional
arguments at the start of `run`; the exhaustive, stepwise and confidence
policies clear it (set it to `None`) before a normal return — the exhaustive
one also on the cached fast path — but `EpsilonAutotuner.run` returns from
inside its loop and leaves `nargs` populated. -/
theorem c7_theorem :
    (∀ (arg_names keys : List String) (configs : List Nat)
      (cfg : Nat → Config) (cache : List (List PyVal × Nat))
      (args : List PyVal) (kwargs : PyDict) (ps : List Nat)
      (benchO : Nat → BenchOutcome) (launch : Except PyErr RVal),
      (autotunerRun arg_names keys configs cfg cache args kwargs ps benchO
        launch).nargsStart = zipDict arg_names args ∧
      (∀ v, (autotunerRun arg_names keys configs cfg cache args kwargs ps
          benchO launch).res = .ok v →
        (autotunerRun arg_names keys configs cfg cache args kwargs ps benchO
          launch).nargsFinal = none)) ∧
    (∀ (min_try : Nat) (arg_names : List String) (args : List PyVal)
      (ps : List Nat) (os : List IterO) (s : TCache),
      (stepwiseRun min_try arg_names args ps os s).nargsStart =
        zipDict arg_names args ∧
      (∀ v, (stepwiseRun min_try arg_names args ps os s).res = .finished v →
        (stepwiseRun min_try arg_names args ps os s).nargsFinal = none)) ∧
    (∀ (ratio : ℚ) (arg_names : List String) (args : List PyVal)
      (ps : List Nat) (os : List IterO) (s : TCache),
      (confidenceRun ratio arg_names args ps os s).nargsStart =
        zipDict arg_names args ∧
      (∀ v, (confidenceRun ratio arg_names args ps os s).res = .finished v →
        (confidenceRun ratio arg_names args ps os s).nargsFinal = none)) ∧
    (∀ (eps0 decay : ℚ) (arg_names : List String) (args : List PyVal)
      (ps : List Nat) (os : List IterO) (s : EState),
      (epsilonRun eps0 decay arg_names args ps os s).nargsStart =
        zipDict arg_names args ∧
      (epsilonRun eps0 decay arg_names args ps os s).nargsFinal =
        some (zipDict arg_names args)) := by
  refine ⟨?_, ?_, ?_, ?_⟩
  · intro arg_names keys configs cfg cache args kwargs ps benchO launch
    refine ⟨?_, fun v h => autotunerRun_ok_nargs arg_names keys configs cfg
      cache args kwargs ps benchO launch v h⟩
    unfold autotunerRun
    by_cases hlen : 1 < configs.length
    · simp only [hlen, if_true]
      cases hget : assocGet? cache (getKey arg_names keys
          (dictMerge (zipDict arg_names args) kwargs)) with
      | some c =>
        simp only [hget]
        cases launch <;> rfl
      | none =>
        simp only [hget]
        cases hb : benchAll kwargs cfg benchO ps with
        | error p => simp only [hb]
        | ok ts =>
          simp only [hb]
          cases hm : pyMinBy ts (fun p => p.2) tripleLtB with
          | none => simp only [hm]
          | some best =>
            simp only [hm]
            cases launch <;> rfl
    · simp only [hlen, if_false]
      cases hh : configs.head? with
      | none => simp only [hh]
      | some c =>
        simp only [hh]
        cases launch <;> rfl
  · intro min_try arg_names args ps os s
    refine ⟨?_, fun v h => stepwiseRun_fin_nargs min_try arg_names args ps os
      s v h⟩
    unfold stepwiseRun
    cases s <;> rfl
  · intro ratio arg_names args ps os s
    refine ⟨?_, fun v h => confidenceRun_fin_nargs ratio arg_names args ps os
      s v h⟩
    unfold confidenceRun
    cases s <;> rfl
  · intro eps0 decay arg_names args ps os s
    exact ⟨rfl, rfl⟩

/-- C7 witness: the amended theorem at concrete runs — an exhaustive cached
fast path, a stepwise decided run and a confidence decided run all clear
`nargs`; an epsilon run keeps it populated. -/
theorem c7_witness :
    (autotunerRun ["x"] ["x"] [0, 1] (fun _ => defaultConfig)
      [([PyVal.vInt 7], 0)] [PyVal.vInt 7] [] [0, 1] (fun _ => .oor)
      (.ok .rTruthy)).nargsFinal = none ∧
    (stepwiseRun 20 ["x"] [PyVal.vInt 7] [5] [⟨0, 0, .ret .rTruthy, 10⟩]
      (.decided 5)).nargsFinal = none ∧
    (confidenceRun 3 ["x"] [PyVal.vInt 7] [5] [⟨0, 0, .ret .rTruthy, 10⟩]
      (.decided 5)).nargsFinal = none ∧
    (epsilonRun 1 (1 / 1000) ["x"] [PyVal.vInt 7] [5, 9]
      [⟨0, 0, .ret .rTruthy, 10⟩] none).nargsFinal =
      some (zipDict ["x"] [PyVal.vInt 7]) := by
  refine ⟨?_, ?_, ?_, ?_⟩
  · exact ( c7_theorem.1 ["x"] ["x"] [0, 1] (fun _ => defaultConfig)
      [([PyVal.vInt 7], 0)] [PyVal.vInt 7] [] [0, 1] (fun _ => .oor)
      (.ok .rTruthy)).2 .rTruthy rfl
  · exact ( c7_theorem.2.1 20 ["x"] [PyVal.vInt 7] [5]
      [⟨0, 0, .ret .rTruthy, 10⟩] (.decided 5)).2 .rTruthy (by decide)
  · exact ( c7_theorem.2.2.1 3 ["x"] [PyVal.vInt 7] [5]
      [⟨0, 0, .ret .rTruthy, 10⟩] (.decided 5)).2 .rTruthy (by decide)
  · exact ( c7_theorem.2.2.2 1 (1 / 1000) ["x"] [PyVal.vInt 7] [5, 9]
      [⟨0, 0, .ret .rTruthy, 10⟩] none).2

/-! Claim C2. -/

theorem decidedLoop_executed (c : Nat) :
    ∀ (os : List IterO), ∀ d ∈ (decidedLoop c os).2, d = c := by
  intro os
  induction os with
  | nil =>
    intro d hd
    simp [decidedLoop] at hd
  | cons o os ih =>
    intro d hd
    unfold decidedLoop at hd
    split at hd
    · split at hd
      · rcases List.mem_cons.mp hd with hd | hd
        · exact hd
        · exact ih d hd
      · rcases List.mem_cons.mp hd with hd | hd
        · exact hd
        · exact absurd hd (List.not_mem_nil d)
    · rcases List.mem_cons.mp hd with hd | hd
      · exact hd
      · exact ih d hd

theorem autotunerRun_hit (arg_names keys : List String) (configs : List Nat)
    (cfg : Nat → Config) (cache : List (List PyVal × Nat))
    (args : List PyVal) (kwargs : PyDict) (ps : List Nat)
    (benchO : Nat → BenchOutcome) (launch : Except PyErr RVal) (cid : Nat)
    (hlen : 1 < configs.length)
    (hhit : assocGet? cache (getKey arg_names keys
      (dictMerge (zipDict arg_names args) kwargs)) = some cid) :
    (autotunerRun arg_names keys configs cfg cache args kwargs ps benchO
      launch).executed = some cid ∧
    (autotunerRun arg_names keys configs cfg cache args kwargs ps benchO
      launch).cache = cache ∧
    (autotunerRun arg_names keys configs cfg cache args kwargs ps benchO
      launch).benched = [] := by
  unfold autotunerRun
  simp only [hlen, if_true, hhit]
  cases launch <;> exact ⟨rfl, rfl, rfl⟩

theorem autotunerRun_cache_preserve (arg_names keys : List String)
    (configs : List Nat) (cfg : Nat → Config)
    (cache : List (List PyVal × Nat)) (args : List PyVal) (kwargs : PyDict)
    (ps : List Nat) (benchO : Nat → BenchOutcome) (launch : Except PyErr RVal)
    (k : List PyVal) (cid : Nat) (h : assocGet? cache k = some cid) :
    assocGet? (autotunerRun arg_names keys configs cfg cache args kwargs ps
      benchO launch).cache k = some cid := by
  unfold autotunerRun
  by_cases hlen : 1 < configs.length
  · simp only [hlen, if_true]
    cases hget : assocGet? cache (getKey arg_names keys
        (dictMerge (zipDict arg_names args) kwargs)) with
    | some c =>
      simp only [hget]
      cases launch <;> exact h
    | none =>
      simp only [hget]
      cases hb : benchAll kwargs cfg benchO ps with
      | error p =>
        simp only [hb]
        exact h
      | ok ts =>
        simp only [hb]
        cases hm : pyMinBy ts (fun p => p.2) tripleLtB with
        | none =>
          simp only [hm]
          exact h
        | some best =>
          simp only [hm]
          cases launch <;> exact assocGet_append_left cache _ k cid h
  · simp only [hlen, if_false]
    cases hh : configs.head? with
    | none =>
      simp only [hh]
      exact h
    | some c =>
      simp only [hh]
      cases launch <;> exact h

theorem autotunerRuns_preserve (arg_names keys : List String)
    (configs : List Nat) (cfg : Nat → Config) :
    ∀ (calls : List ExhCallArgs) (cache : List (List PyVal × Nat))
      (k : List PyVal) (cid : Nat), assocGet? cache k = some cid →
      assocGet? (autotunerRuns arg_names keys configs cfg calls cache) k =
        some cid := by
  intro calls
  induction calls with
  | nil =>
    intro cache k cid h
    exact h
  | cons ca cs ih =>
    intro cache k cid h
    unfold autotunerRuns
    exact ih _ k cid (autotunerRun_cache_preserve arg_names keys configs cfg
      cache ca.args ca.kwargs ca.ps ca.benchO ca.launch k cid h)

theorem stepwiseRuns_decided (min_try : Nat) (arg_names : List String) :
    ∀ (calls : List CallArgs) (c : Nat),
      (stepwiseRuns min_try arg_names calls (.decided c)).1 = .decided c ∧
      ∀ d ∈ (stepwiseRuns min_try arg_names calls (.decided c)).2, d = c := by
  intro calls
  induction calls with
  | nil =>
    intro c
    refine ⟨rfl, ?_⟩
    intro d hd
    simp [stepwiseRuns] at hd
  | cons ca cs ih =>
    intro c
    have hstate : (stepwiseRun min_try arg_names ca.args ca.ps ca.os
        (.decided c)).state = .decided c := rfl
    have hexec : (stepwiseRun min_try arg_names ca.args ca.ps ca.os
        (.decided c)).executed = (decidedLoop c ca.os).2 := rfl
    constructor
    · show (stepwiseRuns min_try arg_names cs
        (stepwiseRun min_try arg_names ca.args ca.ps ca.os
          (.decided c)).state).1 = .decided c
      rw [hstate]
      exact (ih c).1
    · intro d hd
      have hd' : d ∈ (stepwiseRun min_try arg_names ca.args ca.ps ca.os
          (.decided c)).executed ++ (stepwiseRuns min_try arg_names cs
          (stepwiseRun min_try arg_names ca.args ca.ps ca.os
            (.decided c)).state).2 := hd
      rcases List.mem_append.mp hd' with hd' | hd'
      · rw [hexec] at hd'
        exact decidedLoop_executed c ca.os d hd'
      · rw [hstate] at hd'
        exact (ih c).2 d hd'

theorem confidenceRuns_decided (ratio : ℚ) (arg_names : List String) :
    ∀ (calls : List CallArgs) (c : Nat),
      (confidenceRuns ratio arg_names calls (.decided c)).1 = .decided c ∧
      ∀ d ∈ (confidenceRuns ratio arg_names calls (.decided c)).2, d = c := by
  intro calls
  induction calls with
  | nil =>
    intro c
    refine ⟨rfl, ?_⟩
    intro d hd
    simp [confidenceRuns] at hd
  | cons ca cs ih =>
    intro c
    have hstate : (confidenceRun ratio arg_names ca.args ca.ps ca.os
        (.decided c)).state = .decided c := rfl
    have hexec : (confidenceRun ratio arg_names ca.args ca.ps ca.os
        (.decided c)).executed = (decidedLoop c ca.os).2 := rfl
    constructor
    · show (confidenceRuns ratio arg_names cs
        (confidenceRun ratio arg_names ca.args ca.ps ca.os
          (.decided c)).state).1 = .decided c
      rw [hstate]
      exact (ih c).1
    · intro d hd
      have hd' : d ∈ (confidenceRun ratio arg_names ca.args ca.ps ca.os
          (.decided c)).executed ++ (confidenceRuns ratio arg_names cs
          (confidenceRun ratio arg_names ca.args ca.ps ca.os
            (.decided c)).state).2 := hd
      rcases List.mem_append.mp hd' with hd' | hd'
      · rw [hexec] at hd'
        exact decidedLoop_executed c ca.os d hd'
      · rw [hstate] at hd'
        exact (ih c).2 d hd'

/-- C2: once a per-key cache entry holds a decided single `Config`, it is
terminal.  Exhaustive: a cache hit executes exactly the cached config and
writes nothing, and no sequence of further `run` calls ever changes or
removes an existing entry.  Stepwise and confidence: from a decided per-key
state, every sequence of `run` calls executes only the decided config and
ends in the same decided state.  (The epsilon policy has no decided state:
its per-key cache holds `(candidate, epsilon, best_time)` tuples by type, so
the claim is vacuous for it.) -/
theorem c2_theorem :
    (∀ (arg_names keys : List String) (configs : List Nat)
      (cfg : Nat → Config) (cache : List (List PyVal × Nat))
      (args : List PyVal) (kwargs : PyDict) (ps : List Nat)
      (benchO : Nat → BenchOutcome) (launch : Except PyErr RVal) (cid : Nat),
      1 < configs.length →
      assocGet? cache (getKey arg_names keys
        (dictMerge (zipDict arg_names args) kwargs)) = some cid →
      (autotunerRun arg_names keys configs cfg cache args kwargs ps benchO
        launch).executed = some cid ∧
      (autotunerRun arg_names keys configs cfg cache args kwargs ps benchO
        launch).cache = cache) ∧
    (∀ (arg_names keys : List String) (configs : List Nat)
      (cfg : Nat → Config) (calls : List ExhCallArgs)
      (cache : List (List PyVal × Nat)) (k : List PyVal) (cid : Nat),
      assocGet? cache k = some cid →
      assocGet? (autotunerRuns arg_names keys configs cfg calls cache) k =
        some cid) ∧
    (∀ (min_try : Nat) (arg_names : List String) (calls : List CallArgs)
      (c : Nat),
      (stepwiseRuns min_try arg_names calls (.decided c)).1 = .decided c ∧
      ∀ d ∈ (stepwiseRuns min_try arg_names calls (.decided c)).2, d = c) ∧
    (∀ (ratio : ℚ) (arg_names : List String) (calls : List CallArgs)
      (c : Nat),
      (confidenceRuns ratio arg_names calls (.decided c)).1 = .decided c ∧
      ∀ d ∈ (confidenceRuns ratio arg_names calls (.decided c)).2, d = c) := by
  refine ⟨?_, ?_, ?_, ?_⟩
  · intro arg_names keys configs cfg cache args kwargs ps benchO launch cid
      hlen hhit
    have h := autotunerRun_hit arg_names keys configs cfg cache args kwargs
      ps benchO launch cid hlen hhit
    exact ⟨h.1, h.2.1⟩
  · intro arg_names keys configs cfg calls cache k cid h
    exact autotunerRuns_preserve arg_names keys configs cfg calls cache k cid h
  · intro min_try arg_names calls c
    exact stepwiseRuns_decided min_try arg_names calls c
  · intro ratio arg_names calls c
    exact confidenceRuns_decided ratio arg_names calls c

/-- C2 witness: the theorem at concrete runs — an exhaustive hit executes
the cached config 0 and leaves the cache intact; a one-call stepwise and
confidence sequence from a decided state stays decided and executes only the
decided config. -/
theorem c2_witness :
    ((autotunerRun ["x"] ["x"] [0, 1] (fun _ => defaultConfig)
      [([PyVal.vInt 7], 0)] [PyVal.vInt 7] [] [0, 1] (fun _ => .oor)
      (.ok .rTruthy)).executed = some 0 ∧
    (autotunerRun ["x"] ["x"] [0, 1] (fun _ => defaultConfig)
      [([PyVal.vInt 7], 0)] [PyVal.vInt 7] [] [0, 1] (fun _ => .oor)
      (.ok .rTruthy)).cache = [([PyVal.vInt 7], 0)]) ∧
    ((stepwiseRuns 20 ["x"] [⟨[PyVal.vInt 7], [5, 9],
        [⟨0, 0, .ret .rTruthy, 10⟩]⟩] (.decided 5)).1 = .decided 5 ∧
      ∀ d ∈ (stepwiseRuns 20 ["x"] [⟨[PyVal.vInt 7], [5, 9],
        [⟨0, 0, .ret .rTruthy, 10⟩]⟩] (.decided 5)).2, d = 5) ∧
    ((confidenceRuns 3 ["x"] [⟨[PyVal.vInt 7], [5, 9],
        [⟨0, 0, .ret .rTruthy, 10⟩]⟩] (.decided 5)).1 = .decided 5 ∧
      ∀ d ∈ (confidenceRuns 3 ["x"] [⟨[PyVal.vInt 7], [5, 9],
        [⟨0, 0, .ret .rTruthy, 10⟩]⟩] (.decided 5)).2, d = 5) :=
  ⟨c2_theorem.1 ["x"] ["x"] [0, 1] (fun _ => defaultConfig)
    [([PyVal.vInt 7], 0)] [PyVal.vInt 7] [] [0, 1] (fun _ => .oor)
    (.ok .rTruthy) 0 (by decide) (by decide),
   c2_theorem.2.2.1 20 ["x"] [⟨[PyVal.vInt 7], [5, 9],
     [⟨0, 0, .ret .rTruthy, 10⟩]⟩] 5,
   c2_theorem.2.2.2 3 ["x"] [⟨[PyVal.vInt 7], [5, 9],
     [⟨0, 0, .ret .rTruthy, 10⟩]⟩] 5⟩

/-! Claim C4. -/

theorem assocGet?_mem {κ α : Type} [DecidableEq κ] (l : List (κ × α)) (k : κ)
    (v : α) (h : assocGet? l k = some v) : ∃ p ∈ l, p.1 = k ∧ p.2 = v := by
  unfold assocGet? at h
  cases hf : l.find? (fun p => p.1 == k) with
  | none => rw [hf] at h; simp at h
  | some q =>
    rw [hf] at h
    simp at h
    have hqt := List.find?_some hf
    exact ⟨q, List.mem_of_find?_eq_some hf, beq_iff_eq.mp hqt, h⟩

theorem getD_mod_mem (l : List Nat) (i : Nat) (h : l ≠ []) :
    l.getD (i % l.length) 0 ∈ l := by
  have hlen : i % l.length < l.length :=
    Nat.mod_lt _ (List.length_pos.mpr h)
  rw [List.getD_eq_getElem?_getD, List.getElem?_eq_getElem hlen]
  exact List.getElem_mem hlen

theorem assocSet_failedFor (e : Entries) (d : Nat) (v : Option (List ℚ))
    (c : Nat) (hdc : d ≠ c) (h : failedFor e c) :
    failedFor (assocSet e d v) c := by
  constructor
  · rw [assocGet_set_other e d c v (fun hx => hdc hx.symm)]
    exact h.1
  · intro p hp hpc
    unfold assocSet at hp
    by_cases hany : e.any (fun q => q.1 == d)
    · rw [if_pos hany] at hp
      rcases List.mem_map.mp hp with ⟨q, hq, hqe⟩
      by_cases hqd : (q.1 == d) = true
      · rw [if_pos hqd] at hqe
        rw [← hqe] at hpc
        exact absurd hpc hdc
      · rw [if_neg hqd] at hqe
        rw [← hqe] at hpc ⊢
        exact h.2 q hq hpc
    · rw [if_neg hany] at hp
      rcases List.mem_append.mp hp with hp | hp
      · exact h.2 p hp hpc
      · have : p = (d, v) := by simpa using hp
        rw [this] at hpc
        exact absurd hpc hdc

theorem append_failedFor (e : Entries) (d : Nat) (v : Option (List ℚ))
    (c : Nat) (hdc : d ≠ c) (h : failedFor e c) :
    failedFor (e ++ [(d, v)]) c := by
  constructor
  · exact assocGet_append_left e [(d, v)] c none h.1
  · intro p hp hpc
    rcases List.mem_append.mp hp with hp | hp
    · exact h.2 p hp hpc
    · have : p = (d, v) := by simpa using hp
      rw [this] at hpc
      exact absurd hpc hdc

theorem ddLookup_failedFor (e : Entries) (d c : Nat) (h : failedFor e c) :
    failedFor (ddLookup e d).1 c := by
  unfold ddLookup
  cases hg : assocGet? e d with
  | some v => exact h
  | none =>
    have hdc : d ≠ c := by
      intro hx
      rw [hx, h.1] at hg
      exact Option.noConfusion hg
    exact append_failedFor e d (some []) c hdc h

theorem swElig_failedFor (min_try : Nat) (c : Nat) :
    ∀ (ps : List Nat) (e : Entries), failedFor e c →
      failedFor (swElig min_try ps e).1 c := by
  intro ps
  induction ps with
  | nil =>
    intro e h
    exact h
  | cons d ds ih =>
    intro e h
    have hdd : failedFor (ddLookup e d).1 c := ddLookup_failedFor e d c h
    unfold swElig
    cases hv : (ddLookup e d).2 with
    | none =>
      simp only [hv]
      exact ih (ddLookup e d).1 hdd
    | some l =>
      simp only [hv]
      by_cases hl : l.length < min_try
      · rw [if_pos hl]
        exact ih (ddLookup e d).1 hdd
      · rw [if_neg hl]
        exact ih (ddLookup e d).1 hdd

theorem ddLookup_of_failed (e : Entries) (c : Nat) (h : failedFor e c) :
    (ddLookup e c).2 = none := by
  unfold ddLookup
  rw [h.1]

theorem swElig_not_mem (min_try : Nat) (c : Nat) :
    ∀ (ps : List Nat) (e : Entries), failedFor e c →
      c ∉ (swElig min_try ps e).2 := by
  intro ps
  induction ps with
  | nil =>
    intro e _ hc
    simp [swElig] at hc
  | cons d ds ih =>
    intro e h hc
    have hdd : failedFor (ddLookup e d).1 c := ddLookup_failedFor e d c h
    unfold swElig at hc
    cases hv : (ddLookup e d).2 with
    | none =>
      simp only [hv] at hc
      exact ih (ddLookup e d).1 hdd hc
    | some l =>
      simp only [hv] at hc
      by_cases hl : l.length < min_try
      · rw [if_pos hl] at hc
        rcases List.mem_cons.mp hc with hc | hc
        · rw [← hc] at hv
          rw [ddLookup_of_failed e c h] at hv
          exact Option.noConfusion hv
        · exact ih (ddLookup e d).1 hdd hc
      · rw [if_neg hl] at hc
        exact ih (ddLookup e d).1 hdd hc

theorem swRecord_failedFor (e : Entries) (d c : Nat) (t : ℚ) (b : Bool)
    (e2 : Entries) (hdc : d ≠ c) (h : failedFor e c)
    (hr : swRecord e d t b = .ok e2) : failedFor e2 c := by
  unfold swRecord at hr
  by_cases hb : b = true
  · rw [if_pos hb] at hr
    cases hg : assocGet? e d with
    | some v =>
      cases v with
      | none =>
        rw [hg] at hr
        exact Except.noConfusion hr
      | some l =>
        rw [hg] at hr
        simp only [Except.ok.injEq] at hr
        rw [← hr]
        exact assocSet_failedFor e d (some (l ++ [t])) c hdc h
    | none =>
      rw [hg] at hr
      simp only [Except.ok.injEq] at hr
      rw [← hr]
      exact append_failedFor e d (some [t]) c hdc h
  · rw [if_neg hb] at hr
    simp only [Except.ok.injEq] at hr
    rw [← hr]
    exact assocSet_failedFor e d none c hdc h

theorem swCommit_ne (e : Entries) (c d : Nat) (h : failedFor e c)
    (hr : swCommit e = .ok d) : d ≠ c := by
  unfold swCommit at hr
  cases hnn : e.filterMap (fun p => p.2.map (fun l => (p.1, l))) with
  | nil =>
    rw [hnn] at hr
    exact Except.noConfusion hr
  | cons x xs =>
    rw [hnn] at hr
    by_cases ha : (x :: xs).any (fun p => p.2.length = 0)
    · simp only [List.any_cons] at ha
      simp only [List.any_cons] at hr
      rw [if_pos ha] at hr
      exact absurd hr (fun hx => Except.noConfusion hx)
    · simp only [ha, Bool.false_eq_true, if_false] at hr
      cases hm : pyMinBy (x :: xs) (fun p => qMean p.2)
          (fun a b => decide (a < b)) with
      | none =>
        rw [hm] at hr
        exact Except.noConfusion hr
      | some p =>
        rw [hm] at hr
        simp only [Except.ok.injEq] at hr
        have hpm : p ∈ x :: xs := pyMinBy_mem (x :: xs) _ _ p hm
        rw [← hnn] at hpm
        rcases List.mem_filterMap.mp hpm with ⟨q, hq, hfq⟩
        obtain ⟨l, hl, hql⟩ := Option.map_eq_some'.mp hfq
        intro hdc
        have hq1 : q.1 = c := by
          have : q.1 = p.1 := by rw [← hql]
          rw [this, hr, hdc]
        have := h.2 q hq hq1
        rw [this] at hl
        exact Option.noConfusion hl

theorem swLoop_avoids (min_try : Nat) (ps : List Nat) (c : Nat) :
    ∀ (os : List IterO) (e : Entries) (committed : Option Nat),
      failedFor e c → (∀ d, committed = some d → d ≠ c) →
      swAvoidsOut c (swLoop min_try ps os e committed) := by
  intro os
  induction os with
  | nil =>
    intro e committed hf hc
    exact ⟨by simp [swLoop], hf, hc⟩
  | cons o os ih =>
    intro e committed hf hc
    have hfe : failedFor (swElig min_try ps e).1 c :=
      swElig_failedFor min_try c ps e hf
    have hnm : c ∉ (swElig min_try ps e).2 := swElig_not_mem min_try c ps e hf
    simp only [swLoop]
    split
    next hel =>
      -- elig empty: commit branch
      split
      next err hcm => exact ⟨by simp [swAvoidsOut], hfe, hc⟩
      next d hcm =>
        have hd : d ≠ c := swCommit_ne _ c d hfe hcm
        have hcm' : ∀ d2, some d = some d2 → d2 ≠ c := by
          intro d2 hd2
          injection hd2 with h2
          rw [← h2]
          exact hd
        split
        next v hv =>
          split
          next hvn =>
            obtain ⟨h1, h2, h3⟩ := ih (swElig min_try ps e).1 (some d) hfe hcm'
            refine ⟨?_, h2, h3⟩
            intro hcmem
            rcases List.mem_cons.mp hcmem with hcm2 | hcm2
            · exact hd hcm2.symm
            · exact h1 hcm2
          next hvn =>
            refine ⟨?_, hfe, hcm'⟩
            intro hcmem
            rcases List.mem_cons.mp hcmem with hcm2 | hcm2
            · exact hd hcm2.symm
            · simp at hcm2
        next hv =>
          obtain ⟨h1, h2, h3⟩ := ih (swElig min_try ps e).1 (some d) hfe hcm'
          refine ⟨?_, h2, h3⟩
          intro hcmem
          rcases List.mem_cons.mp hcmem with hcm2 | hcm2
          · exact hd hcm2.symm
          · exact h1 hcm2
    next e0 etl hel =>
      -- elig nonempty: explore branch
      have hselmem : (e0 :: etl).getD (o.choice % (e0 :: etl).length) 0 ∈
          e0 :: etl := getD_mod_mem _ _ (by simp)
      have hsel : (e0 :: etl).getD (o.choice % (e0 :: etl).length) 0 ≠ c := by
        intro hx
        rw [hx] at hselmem
        rw [hel] at hnm
        exact hnm hselmem
      split
      next d2 hcomm =>
        refine ⟨?_, hfe, hc⟩
        intro hcmem
        rcases List.mem_cons.mp hcmem with hcm2 | hcm2
        · exact hsel hcm2.symm
        · simp at hcm2
      next hcomm =>
        split
        next err hrec =>
          refine ⟨?_, hfe, hc⟩
          intro hcmem
          rcases List.mem_cons.mp hcmem with hcm2 | hcm2
          · exact hsel hcm2.symm
          · simp at hcm2
        next e2 hrec =>
          have hfe2 : failedFor e2 c :=
            swRecord_failedFor (swElig min_try ps e).1 _ c o.time _ e2 hsel
              hfe hrec
          split
          next hvn =>
            obtain ⟨h1, h2, h3⟩ := ih e2 none hfe2 (by intro d hd; simp at hd)
            refine ⟨?_, h2, h3⟩
            intro hcmem
            rcases List.mem_cons.mp hcmem with hcm2 | hcm2
            · exact hsel hcm2.symm
            · exact h1 hcm2
          next hvn =>
            refine ⟨?_, hfe2, by intro d hd; simp at hd⟩
            intro hcmem
            rcases List.mem_cons.mp hcmem with hcm2 | hcm2
            · exact hsel hcm2.symm
            · simp at hcm2

theorem cfElig_failedFor (c : Nat) :
    ∀ (ps : List Nat) (e : Entries), failedFor e c →
      failedFor (cfElig ps e).1 c := by
  intro ps
  induction ps with
  | nil =>
    intro e h
    exact h
  | cons d ds ih =>
    intro e h
    have hdd : failedFor (ddLookup e d).1 c := ddLookup_failedFor e d c h
    unfold cfElig
    cases hv : (ddLookup e d).2 with
    | none =>
      simp only [hv]
      exact ih (ddLookup e d).1 hdd
    | some l =>
      simp only [hv]
      exact ih (ddLookup e d).1 hdd

theorem cfElig_not_mem (c : Nat) :
    ∀ (ps : List Nat) (e : Entries), failedFor e c →
      c ∉ (cfElig ps e).2 := by
  intro ps
  induction ps with
  | nil =>
    intro e _ hc
    simp [cfElig] at hc
  | cons d ds ih =>
    intro e h hc
    have hdd : failedFor (ddLookup e d).1 c := ddLookup_failedFor e d c h
    unfold cfElig at hc
    cases hv : (ddLookup e d).2 with
    | none =>
      simp only [hv] at hc
      exact ih (ddLookup e d).1 hdd hc
    | some l =>
      simp only [hv] at hc
      rcases List.mem_cons.mp hc with hc | hc
      · rw [← hc] at hv
        rw [ddLookup_of_failed e c h] at hv
        exact Option.noConfusion hv
      · exact ih (ddLookup e d).1 hdd hc

theorem cfCheck_ne_true (ratio upper : ℚ) (cstar c : Nat) (hne : c ≠ cstar) :
    ∀ (entries : Entries), (∃ p ∈ entries, p.1 = c ∧ p.2 = none) →
      cfCheck ratio upper cstar entries ≠ .ok true := by
  intro entries
  induction entries with
  | nil =>
    rintro ⟨p, hp, _⟩
    simp at hp
  | cons q rest ih =>
    rintro ⟨p, hp, hpc, hpv⟩
    unfold cfCheck
    by_cases hq : q.1 = cstar
    · have hq' : (q.1, q.2) = q := rfl
      rcases List.mem_cons.mp hp with hp' | hp'
      · rw [hp'] at hpc
        rw [hpc] at hq
        exact absurd hq hne
      · rw [if_pos hq]
        exact ih ⟨p, hp', hpc, hpv⟩
    · rw [if_neg hq]
      cases hv : q.2 with
      | none => exact fun hx => Except.noConfusion hx
      | some l =>
        show (if lowerB ratio l < upper then Except.ok false
          else cfCheck ratio upper cstar rest) ≠ Except.ok true
        by_cases hl : lowerB ratio l < upper
        · rw [if_pos hl]
          intro hx
          have := Except.ok.inj hx
          exact Bool.noConfusion this
        · rw [if_neg hl]
          rcases List.mem_cons.mp hp with hp' | hp'
          · rw [hp'] at hpv
            rw [hpv] at hv
            exact Option.noConfusion hv
          · exact ih ⟨p, hp', hpc, hpv⟩

theorem cfLoop_avoids (ratio : ℚ) (ps : List Nat) (c : Nat) :
    ∀ (os : List IterO) (e : Entries) (committed : Option Nat),
      failedFor e c → (∀ d, committed = some d → d ≠ c) →
      swAvoidsOut c (cfLoop ratio ps os e committed) := by
  intro os
  induction os with
  | nil =>
    intro e committed hf hc
    exact ⟨by simp [cfLoop], hf, hc⟩
  | cons o os ih =>
    intro e committed hf hc
    have hfe : failedFor (cfElig ps e).1 c := cfElig_failedFor c ps e hf
    have hnm : c ∉ (cfElig ps e).2 := cfElig_not_mem c ps e hf
    simp only [cfLoop]
    split
    next hmin => exact ⟨by simp, hfe, hc⟩
    next cstar hmin =>
      have hcstar : cstar ∈ (cfElig ps e).2 :=
        pyMinBy_mem (cfElig ps e).2 _ _ cstar hmin
      have hcsne : c ≠ cstar := by
        intro hx
        rw [← hx] at hcstar
        exact hnm hcstar
      have hwit : ∃ p ∈ (cfElig ps e).1, p.1 = c ∧ p.2 = none := by
        obtain ⟨p, hp, hp1, hp2⟩ := assocGet?_mem (cfElig ps e).1 c none hfe.1
        exact ⟨p, hp, hp1, hp2⟩
      split
      next err hchk => exact ⟨by simp, hfe, hc⟩
      next commitNow hchk =>
        have hcommitNow : commitNow = false := by
          cases hcn : commitNow with
          | true =>
            rw [hcn] at hchk
            exact absurd hchk
              (cfCheck_ne_true ratio _ cstar c hcsne (cfElig ps e).1 hwit)
          | false => rfl
        subst hcommitNow
        simp only [Bool.false_eq_true, if_false]
        split
        next d2 hcomm =>
          refine ⟨?_, hfe, hc⟩
          intro hcmem
          rcases List.mem_cons.mp hcmem with hcm2 | hcm2
          · exact hcsne hcm2
          · simp at hcm2
        next hcomm =>
          split
          next err hrec =>
            refine ⟨?_, hfe, by intro d hd; simp at hd⟩
            intro hcmem
            rcases List.mem_cons.mp hcmem with hcm2 | hcm2
            · exact hcsne hcm2
            · simp at hcm2
          next e2 hrec =>
            have hfe2 : failedFor e2 c :=
              swRecord_failedFor (cfElig ps e).1 cstar c o.time _ e2
                (fun hx => hcsne hx.symm) hfe hrec
            split
            next hvn =>
              obtain ⟨h1, h2, h3⟩ := ih e2 none hfe2
                (by intro d hd; simp at hd)
              refine ⟨?_, h2, h3⟩
              intro hcmem
              rcases List.mem_cons.mp hcmem with hcm2 | hcm2
              · exact hcsne hcm2
              · exact h1 hcm2
            next hvn =>
              refine ⟨?_, hfe2, by intro d hd; simp at hd⟩
              intro hcmem
              rcases List.mem_cons.mp hcmem with hcm2 | hcm2
              · exact hcsne hcm2
              · simp at hcm2

theorem stepwiseRun_avoids (min_try : Nat) (arg_names : List String)
    (args : List PyVal) (ps : List Nat) (os : List IterO) (s : TCache)
    (c : Nat) (h : avoidsFailed c s) :
    c ∉ (stepwiseRun min_try arg_names args ps os s).executed ∧
    avoidsFailed c (stepwiseRun min_try arg_names args ps os s).state := by
  cases s with
  | decided d =>
    have hd : d ≠ c := h
    constructor
    · intro hcm
      exact hd (decidedLoop_executed d os c hcm).symm
    · exact h
  | deciding e =>
    obtain ⟨h1, h2, h3⟩ := swLoop_avoids min_try ps c os e none h
      (by intro d hd; simp at hd)
    refine ⟨h1, ?_⟩
    show avoidsFailed c (mkT (swLoop min_try ps os e none).entries
      (swLoop min_try ps os e none).committed)
    cases hcm : (swLoop min_try ps os e none).committed with
    | some d => exact h3 d hcm
    | none => exact h2

theorem confidenceRun_avoids (ratio : ℚ) (arg_names : List String)
    (args : List PyVal) (ps : List Nat) (os : List IterO) (s : TCache)
    (c : Nat) (h : avoidsFailed c s) :
    c ∉ (confidenceRun ratio arg_names args ps os s).executed ∧
    avoidsFailed c (confidenceRun ratio arg_names args ps os s).state := by
  cases s with
  | decided d =>
    have hd : d ≠ c := h
    constructor
    · intro hcm
      exact hd (decidedLoop_executed d os c hcm).symm
    · exact h
  | deciding e =>
    obtain ⟨h1, h2, h3⟩ := cfLoop_avoids ratio ps c os e none h
      (by intro d hd; simp at hd)
    refine ⟨h1, ?_⟩
    show avoidsFailed c (mkT (cfLoop ratio ps os e none).entries
      (cfLoop ratio ps os e none).committed)
    cases hcm : (cfLoop ratio ps os e none).committed with
    | some d => exact h3 d hcm
    | none => exact h2

theorem stepwiseRuns_avoids (min_try : Nat) (arg_names : List String) :
    ∀ (calls : List CallArgs) (s : TCache) (c : Nat), avoidsFailed c s →
      c ∉ (stepwiseRuns min_try arg_names calls s).2 ∧
      avoidsFailed c (stepwiseRuns min_try arg_names calls s).1 := by
  intro calls
  induction calls with
  | nil =>
    intro s c h
    exact ⟨by simp [stepwiseRuns], h⟩
  | cons ca cs ih =>
    intro s c h
    obtain ⟨h1, h2⟩ := stepwiseRun_avoids min_try arg_names ca.args ca.ps
      ca.os s c h
    obtain ⟨h3, h4⟩ := ih (stepwiseRun min_try arg_names ca.args ca.ps ca.os
      s).state c h2
    refine ⟨?_, h4⟩
    intro hm
    rcases List.mem_append.mp hm with hm | hm
    · exact h1 hm
    · exact h3 hm

theorem confidenceRuns_avoids (ratio : ℚ) (arg_names : List String) :
    ∀ (calls : List CallArgs) (s : TCache) (c : Nat), avoidsFailed c s →
      c ∉ (confidenceRuns ratio arg_names calls s).2 ∧
      avoidsFailed c (confidenceRuns ratio arg_names calls s).1 := by
  intro calls
  induction calls with
  | nil =>
    intro s c h
    exact ⟨by simp [confidenceRuns], h⟩
  | cons ca cs ih =>
    intro s c h
    obtain ⟨h1, h2⟩ := confidenceRun_avoids ratio arg_names ca.args ca.ps
      ca.os s c h
    obtain ⟨h3, h4⟩ := ih (confidenceRun ratio arg_names ca.args ca.ps ca.os
      s).state c h2
    refine ⟨?_, h4⟩
    intro hm
    rcases List.mem_append.mp hm with hm | hm
    · exact h1 hm
    · exact h3 hm

/-- C4: in the stepwise and confidence policies, a candidate whose per-key
sample entry is the `None` failure sentinel is never selected again under
that key, over any sequence of subsequent `run` calls: it is never launched
(neither as a random exploration choice nor as the decided config), it stays
marked failed while the key is undecided, and the key can only become
decided on a different config. -/
theorem c4_theorem :
    (∀ (min_try : Nat) (arg_names : List String) (calls : List CallArgs)
      (e : Entries) (c : Nat), failedFor e c →
      c ∉ (stepwiseRuns min_try arg_names calls (.deciding e)).2 ∧
      avoidsFailed c (stepwiseRuns min_try arg_names calls (.deciding e)).1) ∧
    (∀ (ratio : ℚ) (arg_names : List String) (calls : List CallArgs)
      (e : Entries) (c : Nat), failedFor e c →
      c ∉ (confidenceRuns ratio arg_names calls (.deciding e)).2 ∧
      avoidsFailed c (confidenceRuns ratio arg_names calls (.deciding e)).1) := by
  constructor
  · intro min_try arg_names calls e c h
    exact stepwiseRuns_avoids min_try arg_names calls (.deciding e) c h
  · intro ratio arg_names calls e c h
    exact confidenceRuns_avoids ratio arg_names calls (.deciding e) c h

/-- C4 witness: the theorem at a concrete state in which config 5 is marked
failed, over a one-call run sequence offering pruned candidates 5 and 9. -/
theorem c4_witness :
    (5 ∉ (stepwiseRuns 2 ["x"] [⟨[PyVal.vInt 7], [5, 9],
      [⟨0, 0, .ret .rTruthy, 10⟩]⟩] (.deciding [(5, none)])).2 ∧
    avoidsFailed 5 (stepwiseRuns 2 ["x"] [⟨[PyVal.vInt 7], [5, 9],
      [⟨0, 0, .ret .rTruthy, 10⟩]⟩] (.deciding [(5, none)])).1) ∧
    (5 ∉ (confidenceRuns 3 ["x"] [⟨[PyVal.vInt 7], [5, 9],
      [⟨0, 0, .ret .rTruthy, 10⟩]⟩] (.deciding [(5, none)])).2 ∧
    avoidsFailed 5 (confidenceRuns 3 ["x"] [⟨[PyVal.vInt 7], [5, 9],
      [⟨0, 0, .ret .rTruthy, 10⟩]⟩] (.deciding [(5, none)])).1) :=
  ⟨c4_theorem.1 2 ["x"] [⟨[PyVal.vInt 7], [5, 9],
      [⟨0, 0, .ret .rTruthy, 10⟩]⟩] [(5, none)] 5 ⟨by decide, by decide⟩,
   c4_theorem.2 3 ["x"] [⟨[PyVal.vInt 7], [5, 9],
      [⟨0, 0, .ret .rTruthy, 10⟩]⟩] [(5, none)] 5 ⟨by decide, by decide⟩⟩

/-! Claim C3. -/

theorem assocGet_append_self {κ α : Type} [DecidableEq κ] (l : List (κ × α))
    (d : κ) (v : α) (h : assocGet? l d = none) :
    assocGet? (l ++ [(d, v)]) d = some v := by
  unfold assocGet? at h ⊢
  rw [List.find?_append]
  cases hf : l.find? (fun p => p.1 == d) with
  | some q => rw [hf] at h; simp at h
  | none =>
    simp only [hf, Option.none_or]
    simp [List.find?]

theorem entList_of_lookup (e : Entries) (c : Nat)
    (h : assocGet? e c = some (some [])) : entList e c = [] := by
  unfold entList
  rw [h]

theorem cfElig_cons (d : Nat) (ds : List Nat) (e : Entries) :
    cfElig (d :: ds) e =
      match (ddLookup e d).2 with
      | none => cfElig ds (ddLookup e d).1
      | some _ => ((cfElig ds (ddLookup e d).1).1,
          d :: (cfElig ds (ddLookup e d).1).2) := rfl

theorem cfElig_all :
    ∀ (ps : List Nat) (e : Entries), (∀ p ∈ e, p.2 = some []) →
      (∀ p ∈ (cfElig ps e).1, p.2 = some []) ∧
      (cfElig ps e).2 = ps ∧
      (∀ c ∈ ps, assocGet? (cfElig ps e).1 c = some (some [])) ∧
      (∀ k w, assocGet? e k = some w → assocGet? (cfElig ps e).1 k = some w) := by
  intro ps
  induction ps with
  | nil =>
    intro e h
    exact ⟨h, rfl, by intro c hc; simp at hc, fun k w hw => hw⟩
  | cons d ds ih =>
    intro e h
    cases hg : assocGet? e d with
    | some v =>
      have hv : v = some [] := by
        obtain ⟨p, hp, _, hp2⟩ := assocGet?_mem e d v hg
        rw [← hp2]
        exact h p hp
      subst hv
      have hdd : ddLookup e d = (e, some []) := by
        unfold ddLookup
        rw [hg]
      obtain ⟨ih1, ih2, ih3, ih4⟩ := ih e h
      have hcf : cfElig (d :: ds) e = ((cfElig ds e).1, d :: (cfElig ds e).2) := by
        rw [cfElig_cons, hdd]
      rw [hcf]
      refine ⟨ih1, by rw [ih2], ?_, ih4⟩
      intro c hc
      rcases List.mem_cons.mp hc with hc | hc
      · rw [hc]
        exact ih4 d (some []) hg
      · exact ih3 c hc
    | none =>
      have hdd : ddLookup e d = (e ++ [(d, some [])], some []) := by
        unfold ddLookup
        rw [hg]
      have h' : ∀ p ∈ e ++ [(d, some [])], p.2 = some [] := by
        intro p hp
        rcases List.mem_append.mp hp with hp | hp
        · exact h p hp
        · have : p = (d, some []) := by simpa using hp
          rw [this]
      obtain ⟨ih1, ih2, ih3, ih4⟩ := ih (e ++ [(d, some [])]) h'
      have hcf : cfElig (d :: ds) e =
          ((cfElig ds (e ++ [(d, some [])])).1,
            d :: (cfElig ds (e ++ [(d, some [])])).2) := by
        rw [cfElig_cons, hdd]
      rw [hcf]
      refine ⟨ih1, by rw [ih2], ?_, ?_⟩
      · intro c hc
        rcases List.mem_cons.mp hc with hc | hc
        · rw [hc]
          exact ih4 d (some []) (assocGet_append_self e d (some []) hg)
        · exact ih3 c hc
      · intro k w hw
        exact ih4 k w (assocGet_append_left e [(d, some [])] k w hw)

theorem cfElig_noinsert :
    ∀ (ps : List Nat) (e : Entries),
      (∀ c ∈ ps, assocGet? e c = some (some [])) →
      cfElig ps e = (e, ps) := by
  intro ps
  induction ps with
  | nil =>
    intro e _
    rfl
  | cons d ds ih =>
    intro e h
    have hg : assocGet? e d = some (some []) := h d (by simp)
    have hdd : ddLookup e d = (e, some []) := by
      unfold ddLookup
      rw [hg]
    have hcf : cfElig (d :: ds) e = ((cfElig ds e).1, d :: (cfElig ds e).2) := by
      rw [cfElig_cons, hdd]
    rw [hcf, ih e (fun c hc => h c (by simp [hc]))]

theorem pyMinBy_const {α β : Type} (f : α → β) (ltB : β → β → Bool) (k : β)
    (hk : ltB k k = false) :
    ∀ (l : List α) (x : α), (∀ a ∈ x :: l, f a = k) →
      pyMinBy (x :: l) f ltB = some x := by
  have hfold : ∀ (l : List α) (x : α), (∀ a ∈ x :: l, f a = k) →
      l.foldl (fun b y => if ltB (f y) (f b) then y else b) x = x := by
    intro l
    induction l with
    | nil =>
      intro x _
      rfl
    | cons y ys ih =>
      intro x h
      have hy : f y = k := h y (by simp)
      have hx : f x = k := h x (by simp)
      simp only [List.foldl, hy, hx, hk, Bool.false_eq_true, if_false]
      exact ih x (by
        intro a ha
        rcases List.mem_cons.mp ha with ha | ha
        · rw [ha]; exact hx
        · exact h a (by simp [ha]))
  intro l x h
  simp only [pyMinBy, Option.some_inj]
  exact hfold l x h

theorem boundary_nil (ratio : ℚ) :
    lowerB ratio [] = FMAX ∧ upperB ratio [] = FMAX := by
  constructor <;>
    simp [lowerB, upperB, getBoundary, mul_zero, sub_zero, add_zero]

theorem cfCheck_all_empty (ratio : ℚ) (cstar : Nat) :
    ∀ (e : Entries), (∀ p ∈ e, p.2 = some []) →
      cfCheck ratio (upperB ratio []) cstar e = .ok true := by
  intro e
  induction e with
  | nil =>
    intro _
    rfl
  | cons q rest ih =>
    intro h
    have hq : q.2 = some [] := h q (by simp)
    have hrest : cfCheck ratio (upperB ratio []) cstar rest = .ok true :=
      ih (fun p hp => h p (by simp [hp]))
    unfold cfCheck
    by_cases hqc : q.1 = cstar
    · rw [if_pos hqc]
      exact hrest
    · rw [if_neg hqc, hq]
      have hlt : ¬ lowerB ratio [] < upperB ratio [] := by
        rw [(boundary_nil ratio).1, (boundary_nil ratio).2]
        exact lt_irrefl FMAX
      show (if lowerB ratio [] < upperB ratio [] then Except.ok false
        else cfCheck ratio (upperB ratio []) cstar rest) = Except.ok true
      rw [if_neg hlt]
      exact hrest

theorem cfLoop_locked (ratio : ℚ) (p0 : Nat) (pr : List Nat) :
    ∀ (os : List IterO) (e : Entries) (c0 : Option Nat),
      (∀ p ∈ e, p.2 = some []) →
      (∀ c ∈ p0 :: pr, assocGet? e c = some (some [])) →
      (cfLoop ratio (p0 :: pr) os e c0).entries = e ∧
      (cfLoop ratio (p0 :: pr) os e c0).committed =
        (match os with | [] => c0 | _ :: _ => some p0) ∧
      ∀ d ∈ (cfLoop ratio (p0 :: pr) os e c0).executed, d = p0 := by
  intro os
  induction os with
  | nil =>
    intro e c0 _ _
    exact ⟨rfl, rfl, by intro d hd; simp [cfLoop] at hd⟩
  | cons o os ih =>
    intro e c0 hall hpresent
    have hel : cfElig (p0 :: pr) e = (e, p0 :: pr) :=
      cfElig_noinsert (p0 :: pr) e hpresent
    have hsel : pyMinBy (p0 :: pr) (fun c => lowerB ratio (entList e c))
        (fun a b => decide (a < b)) = some p0 := by
      apply pyMinBy_const _ _ FMAX (by simp)
      intro a ha
      rw [entList_of_lookup e a (hpresent a ha)]
      exact (boundary_nil ratio).1
    have hchk : cfCheck ratio (upperB ratio (entList e p0)) p0 e =
        .ok true := by
      rw [entList_of_lookup e p0 (hpresent p0 (by simp))]
      exact cfCheck_all_empty ratio p0 e hall
    simp only [cfLoop, hel, hsel, hchk, if_true]
    split
    next hvn =>
      obtain ⟨ih1, ih2, ih3⟩ := ih e (some p0) hall hpresent
      refine ⟨ih1, ?_, ?_⟩
      · rw [ih2]
        cases os <;> rfl
      · intro d hd
        rcases List.mem_cons.mp hd with hd | hd
        · exact hd
        · exact ih3 d hd
    next hvn =>
      refine ⟨rfl, rfl, ?_⟩
      intro d hd
      rcases List.mem_cons.mp hd with hd | hd
      · exact hd
      · exact absurd hd (List.not_mem_nil d)

theorem cfLoop_from_empty (ratio : ℚ) (p0 : Nat) (pr : List Nat) (o : IterO)
    (os : List IterO) :
    (cfLoop ratio (p0 :: pr) (o :: os) [] none).entries =
      (cfElig (p0 :: pr) ([] : Entries)).1 ∧
    (cfLoop ratio (p0 :: pr) (o :: os) [] none).committed = some p0 ∧
    (cfLoop ratio (p0 :: pr) (o :: os) [] none).executed.head? = some p0 ∧
    ∀ d ∈ (cfLoop ratio (p0 :: pr) (o :: os) [] none).executed, d = p0 := by
  obtain ⟨hall, helig, hlook, _⟩ :=
    cfElig_all (p0 :: pr) [] (by intro p hp; simp at hp)
  have hsel : pyMinBy (cfElig (p0 :: pr) ([] : Entries)).2
      (fun c => lowerB ratio (entList (cfElig (p0 :: pr) ([] : Entries)).1 c))
      (fun a b => decide (a < b)) = some p0 := by
    rw [helig]
    apply pyMinBy_const _ _ FMAX (by simp)
    intro a ha
    rw [entList_of_lookup _ a (hlook a ha)]
    exact (boundary_nil ratio).1
  have hchk : cfCheck ratio
      (upperB ratio (entList (cfElig (p0 :: pr) ([] : Entries)).1 p0)) p0
      (cfElig (p0 :: pr) ([] : Entries)).1 = .ok true := by
    rw [entList_of_lookup _ p0 (hlook p0 (by simp))]
    exact cfCheck_all_empty ratio p0 _ hall
  simp only [cfLoop, hsel, hchk, if_true]
  split
  next hvn =>
    obtain ⟨ih1, ih2, ih3⟩ := cfLoop_locked ratio p0 pr os
      (cfElig (p0 :: pr) ([] : Entries)).1 (some p0) hall hlook
    refine ⟨ih1, ?_, rfl, ?_⟩
    · rw [ih2]
      cases os <;> rfl
    · intro d hd
      rcases List.mem_cons.mp hd with hd | hd
      · exact hd
      · exact ih3 d hd
  next hvn =>
    refine ⟨rfl, rfl, rfl, ?_⟩
    intro d hd
    rcases List.mem_cons.mp hd with hd | hd
    · exact hd
    · exact absurd hd (List.not_mem_nil d)

theorem cfReach_inv (ratio : ℚ) :
    ∀ s, CfReach ratio s → s = .deciding [] ∨ ∃ c, s = .decided c := by
  intro s h
  induction h with
  | init => exact Or.inl rfl
  | step arg_names args ps os s' hs ih =>
    rcases ih with hdec | ⟨c, hdec⟩
    · subst hdec
      cases os with
      | nil => exact Or.inl rfl
      | cons o os' =>
        cases ps with
        | nil => exact Or.inl rfl
        | cons p0 pr =>
          right
          refine ⟨p0, ?_⟩
          have h2 := (cfLoop_from_empty ratio p0 pr o os').2.1
          show mkT (cfLoop ratio (p0 :: pr) (o :: os') [] none).entries
            (cfLoop ratio (p0 :: pr) (o :: os') [] none).committed =
            .decided p0
          rw [h2]
          rfl
    · rw [hdec]
      exact Or.inr ⟨c, rfl⟩

/-- C3: in the confidence policy, at every reachable undecided per-key
state, the candidate `c*` selected by the next `run` minimizes the claim's
`lower(t) = mean(t) - ratio * var(t)` (mean = +inf on an empty sample list,
var = +inf for one sample and 0 for none) over the non-failed candidates,
and the run commits `c*` as decided exactly when every other non-failed
candidate `c` satisfies `lower(c) >= upper(c*)`.  (Reachable undecided
states have empty sample stores: the boundary test is satisfied vacuously on
the first call — `float_info.max >= float_info.max` — so the commit fires
immediately and the policy never measures while undecided.) -/
theorem c3_theorem (ratio : ℚ) (arg_names : List String) (args : List PyVal)
    (ps : List Nat) (o : IterO) (os : List IterO) (s : TCache) (e : Entries)
    (hreach : CfReach ratio s) (hs : s = .deciding e) (hps : ps ≠ []) :
    ∃ cstar,
      (confidenceRun ratio arg_names args ps (o :: os) s).executed.head? =
        some cstar ∧
      cstar ∈ ps ∧
      (claimSamples e cstar).isSome = true ∧
      (∀ d ∈ ps, ∀ l, claimSamples e d = some l →
        XQ.leB (specLower ratio ((claimSamples e cstar).getD []))
          (specLower ratio l) = true) ∧
      ((confidenceRun ratio arg_names args ps (o :: os) s).state =
          .decided cstar ↔
        (∀ d ∈ ps, d ≠ cstar → ∀ l, claimSamples e d = some l →
          XQ.leB (specUpper ratio ((claimSamples e cstar).getD []))
            (specLower ratio l) = true)) := by
  rcases cfReach_inv ratio s hreach with hdec | ⟨c, hdec⟩
  · rw [hs] at hdec
    have he : e = [] := by injection hdec
    subst he
    subst hs
    obtain ⟨p0, pr, hp⟩ : ∃ p0 pr, ps = p0 :: pr := by
      cases ps with
      | nil => exact absurd rfl hps
      | cons p0 pr => exact ⟨p0, pr, rfl⟩
    subst hp
    obtain ⟨h1, h2, h3, h4⟩ := cfLoop_from_empty ratio p0 pr o os
    refine ⟨p0, h3, by simp, rfl, ?_, ?_⟩
    · intro d hd l hl
      have hle : l = [] := by
        have : (some [] : Option (List ℚ)) = some l := hl
        exact (Option.some.inj this).symm
      subst hle
      rfl
    · constructor
      · intro _ d hd hdne l hl
        have hle : l = [] := by
          have : (some [] : Option (List ℚ)) = some l := hl
          exact (Option.some.inj this).symm
        subst hle
        rfl
      · intro _
        show mkT (cfLoop ratio (p0 :: pr) (o :: os) [] none).entries
          (cfLoop ratio (p0 :: pr) (o :: os) [] none).committed = .decided p0
        rw [h2]
        rfl
  · rw [hs] at hdec
    exact absurd hdec (by simp)

/-- C3 witness: the theorem at the initial (reachable, undecided) state with
two pruned candidates — the first pruned candidate is selected, it trivially
minimizes the claim's lower boundary, and the commit condition holds (and the
key is indeed decided on it). -/
theorem c3_witness :
    ∃ cstar,
      (confidenceRun 3 ["x"] [PyVal.vInt 7] [0, 1]
        [⟨0, 0, .ret .rTruthy, 10⟩] (.deciding [])).executed.head? =
        some cstar ∧
      cstar ∈ [0, 1] ∧
      (claimSamples [] cstar).isSome = true ∧
      (∀ d ∈ [0, 1], ∀ l, claimSamples [] d = some l →
        XQ.leB (specLower 3 ((claimSamples [] cstar).getD []))
          (specLower 3 l) = true) ∧
      ((confidenceRun 3 ["x"] [PyVal.vInt 7] [0, 1]
          [⟨0, 0, .ret .rTruthy, 10⟩] (.deciding [])).state =
          .decided cstar ↔
        (∀ d ∈ [0, 1], d ≠ cstar → ∀ l, claimSamples [] d = some l →
          XQ.leB (specUpper 3 ((claimSamples [] cstar).getD []))
            (specLower 3 l) = true)) :=
  c3_theorem 3 ["x"] [PyVal.vInt 7] [0, 1] ⟨0, 0, .ret .rTruthy, 10⟩ []
    (.deciding []) [] CfReach.init rfl (by decide)

end Autotuner
